import Mathlib

/-!
Shallow embedding of the structured-content pagination and multi-format
document renderer of VocalEye
(`src/voice_assistant/modules/llm_tools/create_file.py`), together with
proofs about it.

A Python `str` is a sequence of Unicode code points; it is embedded here as
`List Char`.  String literals of the source appear as `"...".data`.
File-system and presentation-library side effects (colors, point sizes,
shape geometry) are abstracted away: the embedding keeps exactly the
structural content the renderers decide on — which element goes where, in
which order, on which page/slide — which is what the verified properties
are about.
-/

namespace VocalEye

/-- The set of characters Python's `str.strip` / `str.lstrip` / `str.rstrip`
and no-argument `str.split` treat as whitespace. -/
def isPySpace (c : Char) : Bool :=
  (9 ≤ c.toNat && c.toNat ≤ 13) || (28 ≤ c.toNat && c.toNat ≤ 31) ||
  c.toNat = 32 || c.toNat = 0x85 || c.toNat = 0xA0 || c.toNat = 0x1680 ||
  (0x2000 ≤ c.toNat && c.toNat ≤ 0x200A) || c.toNat = 0x2028 ||
  c.toNat = 0x2029 || c.toNat = 0x202F || c.toNat = 0x205F || c.toNat = 0x3000

/-- Python `str.lstrip()`. -/
def pyLstrip (l : List Char) : List Char := l.dropWhile isPySpace

/-- Python `str.rstrip()`. -/
def pyRstrip (l : List Char) : List Char := (l.reverse.dropWhile isPySpace).reverse

/-- Python `str.strip()`. -/
def pyStrip (l : List Char) : List Char := pyRstrip (pyLstrip l)

/-- Helper for `pyWords`: accumulates the current word (reversed) while
scanning. -/
def pyWordsAux : List Char → List Char → List (List Char)
  | [], acc => if acc = [] then [] else [acc.reverse]
  | c :: cs, acc =>
    if isPySpace c then
      if acc = [] then pyWordsAux cs [] else acc.reverse :: pyWordsAux cs []
    else pyWordsAux cs (c :: acc)

/-- Python `str.split()` with no arguments: maximal runs of
non-whitespace characters; empty strings never appear in the result. -/
def pyWords (l : List Char) : List (List Char) := pyWordsAux l []

/-- Line-boundary characters of Python `str.splitlines()`. -/
def isLineBreak (c : Char) : Bool :=
  c = '\n' || c = '\r' || c.toNat = 11 || c.toNat = 12 || c.toNat = 28 ||
  c.toNat = 29 || c.toNat = 30 || c.toNat = 0x85 || c.toNat = 0x2028 ||
  c.toNat = 0x2029

/-- Helper for `pySplitlines`; `acc` is the current line, reversed, and
`afterCR` records that the previous character was `'\r'` (so that a
following `'\n'` is part of the same `"\r\n"` boundary). -/
def pySplitlinesAux : List Char → List Char → Bool → List (List Char)
  | [], acc, _ => if acc = [] then [] else [acc.reverse]
  | c :: cs, acc, afterCR =>
    if afterCR && c = '\n' then pySplitlinesAux cs acc false
    else if c = '\r' then acc.reverse :: pySplitlinesAux cs [] true
    else if isLineBreak c then acc.reverse :: pySplitlinesAux cs [] false
    else pySplitlinesAux cs (c :: acc) false

/-- Python `str.splitlines()` (`"\r\n"` counts as a single boundary; a
trailing boundary does not produce a trailing empty line). -/
def pySplitlines (l : List Char) : List (List Char) := pySplitlinesAux l [] false

/-- Length of the leading run of characters satisfying `p`. -/
def runLen (p : Char → Bool) : List Char → Nat
  | [] => 0
  | c :: cs => if p c then runLen p cs + 1 else 0

/-- The emphasis-marker characters the sanitizer strips: `*`, `_`, `` ` ``. -/
def isMarkupChar (c : Char) : Bool := c = '*' || c = '_' || c = '`'

/-!
### A small `re.sub` scanner

Every pattern used by `create_file.py` matches at least one character, so
`re.sub(pattern, repl, s)` is: scan positions left to right, at each
position try the pattern; on a match emit the replacement and resume after
the matched region, otherwise emit the character and advance by one.

A matcher `tryM l` returns `some (n, r)` when the pattern matches a prefix
of `l` of length `n ≥ 1`, with `r` the replacement text for that match.
`subScanF` carries fuel; since every match consumes at least one character,
fuel equal to the length of the input suffices (`subScan` supplies it).
-/

/-- One `re.sub` pass, fuelled. -/
def subScanF (tryM : List Char → Option (Nat × List Char)) : Nat → List Char → List Char
  | _, [] => []
  | 0, l => l
  | fuel + 1, c :: cs =>
    match tryM (c :: cs) with
    | some (n, r) => r ++ subScanF tryM fuel (cs.drop (n - 1))
    | none => c :: subScanF tryM fuel cs

/-- One `re.sub` pass over a whole string. -/
def subScan (tryM : List Char → Option (Nat × List Char)) (l : List Char) : List Char :=
  subScanF tryM l.length l

/-- Lazy search for a closing literal delimiter: finds the least split
`l = g ++ cls ++ rest` with `g` nonempty and free of `'\n'` (the group of
`(.+?)`, where `.` does not match a newline); returns `(g, rest)`. -/
def findClose (cls : List Char) : List Char → Option (List Char × List Char)
  | [] => none
  | c :: cs =>
    if c = '\n' then none
    else if cls.isPrefixOf cs then some ([c], cs.drop cls.length)
    else
      match findClose cls cs with
      | some (g, rest) => some (c :: g, rest)
      | none => none

/-- Matcher for the patterns `\*\*(.+?)\*\*`, `__(.+?)__`, `\*(.+?)\*`,
`_(.+?)_` (fixed literal delimiters, lazy group), replacement `\1`. -/
def tryPair (delim : List Char) (l : List Char) : Option (Nat × List Char) :=
  if delim.isPrefixOf l then
    match findClose delim (l.drop delim.length) with
    | some (g, rest) => some (l.length - rest.length, g)
    | none => none
  else none

/-- Lazy search for a closing backtick run: finds the least split
`l = g ++ run ++ rest` where `g` is nonempty and `'\n'`-free, `run` is a
nonempty maximal run of `` '`' `` (the final greedy `` `+ `` of the
pattern, which, with nothing after it, consumes the whole run);
returns `(g, rest)`. -/
def findTickClose : List Char → Option (List Char × List Char)
  | [] => none
  | c :: cs =>
    if c = '\n' then none
    else if cs.headD ' ' = '`' ∧ cs ≠ [] then
      some ([c], cs.drop (runLen (fun x => x = '`') cs))
    else
      match findTickClose cs with
      | some (g, rest) => some (c :: g, rest)
      | none => none

/-- Backtracking over the length of the opening greedy `` `+ `` run, from
`t1` down to `1`. -/
def tryTicksFrom : Nat → List Char → Option (Nat × List Char)
  | 0, _ => none
  | t1 + 1, l =>
    match findTickClose (l.drop (t1 + 1)) with
    | some (g, rest) => some (l.length - rest.length, g)
    | none => tryTicksFrom t1 l

/-- Matcher for `` `+(.+?)`+ `` (greedy opening run, lazy group, greedy
closing run), replacement `\1`. -/
def tryTicks (l : List Char) : Option (Nat × List Char) :=
  tryTicksFrom (runLen (fun x => x = '`') l) l

/-- Matcher for `[*_`]+` (greedy), replacement empty. -/
def tryStray (l : List Char) : Option (Nat × List Char) :=
  match l with
  | [] => none
  | c :: _ => if isMarkupChar c then some (runLen isMarkupChar l, []) else none

/-- `_sanitize_inline_markup` of `create_file.py` (lines 81–98): the five
`re.sub` passes removing code ticks and bold/italic emphasis, a pass
deleting any remaining stray marker characters, then `str.strip()`.
The Python guard `if not s: return s` returns an empty string unchanged. -/
def _sanitize_inline_markup (s : List Char) : List Char :=
  if s = [] then s
  else
    pyStrip (subScan tryStray
      (subScan (tryPair "_".data)
        (subScan (tryPair "*".data)
          (subScan (tryPair "__".data)
            (subScan (tryPair "**".data)
              (subScan tryTicks s))))))

/-- The block kinds produced by the parser. -/
inductive BlockType where
  | h1
  | h2
  | h3
  | bullet
  | p
deriving DecidableEq, Repr

/-- A parsed block: `{"type": ..., "text": ...}`. -/
structure Block where
  type : BlockType
  text : List Char
deriving DecidableEq, Repr

/-- Classification of one line of input by `parse_txt_structure`
(lines 109–123): `rstrip`, skip if empty, `lstrip`, then the fixed-prefix
dispatch, sanitizing the text payload. -/
def parseLine (raw_line : List Char) : Option Block :=
  if pyRstrip raw_line = [] then none
  else if "# ".data.isPrefixOf (pyLstrip (pyRstrip raw_line)) then
    some ⟨.h1, _sanitize_inline_markup ((pyLstrip (pyRstrip raw_line)).drop 2)⟩
  else if "## ".data.isPrefixOf (pyLstrip (pyRstrip raw_line)) then
    some ⟨.h2, _sanitize_inline_markup ((pyLstrip (pyRstrip raw_line)).drop 3)⟩
  else if "### ".data.isPrefixOf (pyLstrip (pyRstrip raw_line)) then
    some ⟨.h3, _sanitize_inline_markup ((pyLstrip (pyRstrip raw_line)).drop 4)⟩
  else if "- ".data.isPrefixOf (pyLstrip (pyRstrip raw_line)) then
    some ⟨.bullet, _sanitize_inline_markup ((pyLstrip (pyRstrip raw_line)).drop 2)⟩
  else
    some ⟨.p, _sanitize_inline_markup (pyLstrip (pyRstrip raw_line))⟩

/-- The text payload a line contributes to its block, as the parser's
fixed-prefix dispatch selects it (lines 113–123): the rstripped, lstripped
line with its structural marker (`"# "`, `"## "`, `"### "`, `"- "`)
removed, or the whole stripped line for a paragraph.  `parseLine`
sanitizes exactly this content (conditions listed in the same order). -/
def lineContent (raw_line : List Char) : List Char :=
  if "# ".data.isPrefixOf (pyLstrip (pyRstrip raw_line)) then
    (pyLstrip (pyRstrip raw_line)).drop 2
  else if "## ".data.isPrefixOf (pyLstrip (pyRstrip raw_line)) then
    (pyLstrip (pyRstrip raw_line)).drop 3
  else if "### ".data.isPrefixOf (pyLstrip (pyRstrip raw_line)) then
    (pyLstrip (pyRstrip raw_line)).drop 4
  else if "- ".data.isPrefixOf (pyLstrip (pyRstrip raw_line)) then
    (pyLstrip (pyRstrip raw_line)).drop 2
  else pyLstrip (pyRstrip raw_line)

/-- `parse_txt_structure` of `create_file.py` (lines 101–124).  The Python
function accepts `None` (returning `[]`), embedded as `Option`. -/
def parse_txt_structure : Option (List Char) → List Block
  | none => []
  | some text => (pySplitlines text).filterMap parseLine

/-!
### SHA-256 and the palette selector

`pick_palette` (lines 51–54) hashes the UTF-8 encoding of the title with
SHA-256, parses the first 8 hex digits of the digest as an integer, and
indexes the palette table modulo its size.  SHA-256 is embedded here in
full (FIPS 180-4), on `Nat` with explicit reduction mod `2^32`.
-/

/-- Truncation to a 32-bit word. -/
def w32 (x : Nat) : Nat := x % 4294967296

/-- 32-bit rotate right. -/
def rotr (n x : Nat) : Nat := w32 ((x >>> n) ||| (x <<< (32 - n)))

/-- SHA-256 round constants (FIPS 180-4, §4.2.2: the first 32 bits of the
fractional parts of the cube roots of the first 64 primes), written as
decimal literals. -/
def shaK : List Nat :=
  [1116352408, 1899447441, 3049323471, 3921009573, 961987163, 1508970993,
   2453635748, 2870763221, 3624381080, 310598401, 607225278, 1426881987,
   1925078388, 2162078206, 2614888103, 3248222580, 3835390401, 4022224774,
   264347078, 604807628, 770255983, 1249150122, 1555081692, 1996064986,
   2554220882, 2821834349, 2952996808, 3210313671, 3336571891, 3584528711,
   113926993, 338241895, 666307205, 773529912, 1294757372, 1396182291,
   1695183700, 1986661051, 2177026350, 2456956037, 2730485921, 2820302411,
   3259730800, 3345764771, 3516065817, 3600352804, 4094571909, 275423344,
   430227734, 506948616, 659060556, 883997877, 958139571, 1322822218,
   1537002063, 1747873779, 1955562222, 2024104815, 2227730452, 2361852424,
   2428436474, 2756734187, 3204031479, 3329325298]

/-- SHA-256 initial hash value (FIPS 180-4, §5.3.3), as decimal
literals. -/
def shaH0 : List Nat :=
  [1779033703, 3144134277, 1013904242, 2773480762,
   1359893119, 2600822924, 528734635, 1541459225]

/-- σ₀ of the message schedule. -/
def smallSigma0 (x : Nat) : Nat := rotr 7 x ^^^ rotr 18 x ^^^ (x >>> 3)

/-- σ₁ of the message schedule. -/
def smallSigma1 (x : Nat) : Nat := rotr 17 x ^^^ rotr 19 x ^^^ (x >>> 10)

/-- Σ₀ of the compression function. -/
def bigSigma0 (x : Nat) : Nat := rotr 2 x ^^^ rotr 13 x ^^^ rotr 22 x

/-- Σ₁ of the compression function. -/
def bigSigma1 (x : Nat) : Nat := rotr 6 x ^^^ rotr 11 x ^^^ rotr 25 x

/-- SHA-256 padding: append `0x80`, zeros to 56 mod 64, then the bit
length as 8 big-endian bytes. -/
def padMsg (msg : List Nat) : List Nat :=
  let L := msg.length
  msg ++ 0x80 :: List.replicate ((119 - L % 64) % 64) 0 ++
    (List.range 8).map (fun i => ((8 * L) >>> (8 * (7 - i))) % 256)

/-- Split into 64-byte chunks (fuelled; the input length is a multiple of
64 after padding, and fuel `len / 64 + 1` covers every chunk). -/
def chunks64F : Nat → List Nat → List (List Nat)
  | 0, _ => []
  | _, [] => []
  | fuel + 1, l => l.take 64 :: chunks64F fuel (l.drop 64)

/-- Split a padded message into 64-byte chunks. -/
def chunks64 (l : List Nat) : List (List Nat) := chunks64F (l.length / 64 + 1) l

/-- Big-endian 32-bit word `i` of a 64-byte chunk. -/
def wordAt (chunk : List Nat) (i : Nat) : Nat :=
  chunk.getD (4 * i) 0 * 0x1000000 + chunk.getD (4 * i + 1) 0 * 0x10000 +
    chunk.getD (4 * i + 2) 0 * 0x100 + chunk.getD (4 * i + 3) 0

/-- The 64-entry message schedule of a chunk. -/
def schedule (chunk : List Nat) : List Nat :=
  (List.range 48).foldl
    (fun w _ =>
      w ++ [w32 (w.getD (w.length - 16) 0 + smallSigma0 (w.getD (w.length - 15) 0) +
                 w.getD (w.length - 7) 0 + smallSigma1 (w.getD (w.length - 2) 0))])
    ((List.range 16).map (wordAt chunk))

/-- One SHA-256 compression step over a 64-byte chunk. -/
def compress (h : List Nat) (chunk : List Nat) : List Nat :=
  let w := schedule chunk
  let fin :=
    (List.range 64).foldl
      (fun (st : Nat × Nat × Nat × Nat × Nat × Nat × Nat × Nat) i =>
        let (a, b, c, d, e, f, g, hh) := st
        let t1 := w32 (hh + bigSigma1 e + ((e &&& f) ^^^ ((e ^^^ 0xFFFFFFFF) &&& g)) +
                       shaK.getD i 0 + w.getD i 0)
        let t2 := w32 (bigSigma0 a + ((a &&& b) ^^^ (a &&& c) ^^^ (b &&& c)))
        (w32 (t1 + t2), a, b, c, w32 (d + t1), e, f, g))
      (h.getD 0 0, h.getD 1 0, h.getD 2 0, h.getD 3 0,
       h.getD 4 0, h.getD 5 0, h.getD 6 0, h.getD 7 0)
  match fin with
  | (a, b, c, d, e, f, g, hh) =>
    [w32 (h.getD 0 0 + a), w32 (h.getD 1 0 + b), w32 (h.getD 2 0 + c), w32 (h.getD 3 0 + d),
     w32 (h.getD 4 0 + e), w32 (h.getD 5 0 + f), w32 (h.getD 6 0 + g), w32 (h.getD 7 0 + hh)]

/-- The eight 32-bit words of the SHA-256 digest of a byte sequence. -/
def sha256Words (msg : List Nat) : List Nat := (chunks64 (padMsg msg)).foldl compress shaH0

/-- Lowercase hex digit. -/
def hexDigit (n : Nat) : Char := if n < 10 then Char.ofNat (48 + n) else Char.ofNat (87 + n)

/-- A 32-bit word as 8 lowercase hex characters. -/
def toHex8 (x : Nat) : List Char := (List.range 8).map (fun i => hexDigit ((x >>> (4 * (7 - i))) % 16))

/-- `hashlib.sha256(bytes).hexdigest()`. -/
def sha256hex (msg : List Nat) : List Char := ((sha256Words msg).map toHex8).flatten

/-- UTF-8 encoding of one code point. -/
def utf8Bytes (n : Nat) : List Nat :=
  if n < 0x80 then [n]
  else if n < 0x800 then [0xC0 + n / 0x40, 0x80 + n % 0x40]
  else if n < 0x10000 then [0xE0 + n / 0x1000, 0x80 + (n / 0x40) % 0x40, 0x80 + n % 0x40]
  else [0xF0 + n / 0x40000, 0x80 + (n / 0x1000) % 0x40, 0x80 + (n / 0x40) % 0x40, 0x80 + n % 0x40]

/-- Python `str.encode()` (UTF-8). -/
def pyEncode (s : List Char) : List Nat := (s.map (fun c => utf8Bytes c.toNat)).flatten

/-- Value of one hex digit (as accepted by Python `int(_, 16)`). -/
def hexVal (c : Char) : Nat :=
  if 48 ≤ c.toNat && c.toNat ≤ 57 then c.toNat - 48
  else if 97 ≤ c.toNat && c.toNat ≤ 102 then c.toNat - 87
  else if 65 ≤ c.toNat && c.toNat ≤ 70 then c.toNat - 55
  else 0

/-- Python `int(h, 16)` for a hex string (every call site passes a slice of
a hex digest, so only hex digits occur). -/
def hexToNat (l : List Char) : Nat := l.foldl (fun acc c => acc * 16 + hexVal c) 0

/-- A palette: five semantic color roles, each an RGB triple
(`PALETTES` values, lines 26–48). -/
structure Palette where
  bg : Nat × Nat × Nat
  accent : Nat × Nat × Nat
  accent2 : Nat × Nat × Nat
  text_main : Nat × Nat × Nat
  text_soft : Nat × Nat × Nat
deriving DecidableEq, Repr

/-- The `"deep_sapphire"` palette. -/
def deep_sapphire : Palette :=
  ⟨(6, 14, 38), (82, 145, 255), (255, 188, 66), (235, 244, 255), (178, 196, 220)⟩

/-- The `"slate_modern"` palette. -/
def slate_modern : Palette :=
  ⟨(20, 22, 25), (255, 131, 46), (0, 165, 197), (240, 244, 248), (168, 176, 188)⟩

/-- The `"minimal_white"` palette. -/
def minimal_white : Palette :=
  ⟨(250, 250, 250), (0, 135, 102), (0, 90, 140), (20, 28, 34), (108, 118, 128)⟩

/-- The `PALETTES` table, in insertion order (Python dicts preserve it). -/
def PALETTES : List (List Char × Palette) :=
  [("deep_sapphire".data, deep_sapphire),
   ("slate_modern".data, slate_modern),
   ("minimal_white".data, minimal_white)]

/-- `pick_palette` (lines 51–54):
`PALETTES[list(PALETTES.keys())[int(sha256(key.encode()).hexdigest()[:8], 16) % len(PALETTES)]]`.
Indexing the association list directly at the reduced index is the same as
looking up the key at that position, since keys are distinct and order is
preserved. -/
def pick_palette (key : List Char) : Palette :=
  (PALETTES.get
    ⟨hexToNat ((sha256hex (pyEncode key)).take 8) % PALETTES.length,
     Nat.mod_lt _ (by decide)⟩).2

/-!
### The layout engine
-/

/-- `_lines_for_paragraph`'s greedy accumulation loop (lines 298–305):
`cur` starts as the first word; each further word is appended when
`len(cur) + 1 + len(w)` stays within the budget, else `cur` is emitted and
the word starts a new line; the final `cur` is emitted. -/
def linesGo (budget : Nat) (cur : List Char) : List (List Char) → List (List Char)
  | [] => [cur]
  | w :: ws =>
    if cur.length + 1 + w.length ≤ budget then linesGo budget (cur ++ ' ' :: w) ws
    else cur :: linesGo budget w ws

/-- `_lines_for_paragraph` (lines 293–306).  Empty text yields `[""]`.
Nonempty all-whitespace text makes Python evaluate `words[0]` on an empty
list, raising `IndexError`; that is embedded as `none`. -/
def _lines_for_paragraph (text : List Char) (chars_per_line : Nat) : Option (List (List Char)) :=
  if text = [] then some [[]]
  else
    match pyWords text with
    | [] => none
    | w :: ws => some (linesGo chars_per_line w ws)

/-- One step of the inline wrapping loop of `txt_to_pptx` (lines 436–441):
`cur` starts as `""`, and the fit test and the accumulation both go
through `(cur + " " + w).strip()`. -/
def wrapStep (budget : Nat) (acc : List (List Char) × List Char) (w : List Char) :
    List (List Char) × List Char :=
  if (pyStrip (acc.2 ++ ' ' :: w)).length ≤ budget then (acc.1, pyStrip (acc.2 ++ ' ' :: w))
  else (acc.1 ++ [acc.2], w)

/-- The final `if cur: lines.append(cur)` of the inline loop (line 442). -/
def wrapFinish (r : List (List Char) × List Char) : List (List Char) :=
  if r.2 = [] then r.1 else r.1 ++ [r.2]

/-- The inline line-count estimation loop of `txt_to_pptx` (lines 433–443):
split into words, fold `wrapStep`, append the final `cur` if nonempty. -/
def wrapInline (tx : List Char) (budget : Nat) : List (List Char) :=
  wrapFinish ((pyWords tx).foldl (wrapStep budget) ([], []))

/-- Python regex `\w` restricted to the ASCII range (letters, digits,
underscore).  Non-ASCII word characters are not modelled; no property
stated in this file depends on them. -/
def isWordChar (c : Char) : Bool :=
  (48 ≤ c.toNat && c.toNat ≤ 57) || (65 ≤ c.toNat && c.toNat ≤ 90) ||
  (97 ≤ c.toNat && c.toNat ≤ 122) || c = '_'

/-- Matcher for `(\w{15})` with replacement `\1­` (the soft-hyphen
insertion of `soften`, lines 421–424). -/
def trySoften (l : List Char) : Option (Nat × List Char) :=
  if 15 ≤ l.length then
    if (l.take 15).all isWordChar then some (15, l.take 15 ++ ['­']) else none
  else none

/-- `soften` of `txt_to_pptx` (lines 422–424): insert a soft hyphen after
every 15 consecutive word characters. -/
def soften (text : List Char) : List Char := subScan trySoften text

/-!
### The fixed-page (PDF) renderer
-/

/-- Flowable elements of the `reportlab` story built by `txt_to_pdf`.
Styles are identified by their source names; colors, fonts and point sizes
attached to the styles are presentation attributes with no influence on
element order or grouping, and are omitted. -/
inductive PdfElem where
  | par (style : List Char) (text : List Char)
  | spacer (pts : Nat)
  | bar
  | pageBreak
  | bulletList (items : List (List Char))
deriving DecidableEq, Repr

/-- `flush_bullets` (lines 205–210): when the buffer is nonempty, emit one
grouped `ListFlowable` with all buffered items followed by a spacer, and
clear the buffer. -/
def pdfFlush (story : List PdfElem) (bullets : List (List Char)) : List PdfElem :=
  if bullets = [] then story else story ++ [.bulletList bullets, .spacer 6]

/-- One iteration of the block loop of `txt_to_pdf` (lines 212–229); the
accumulator is `(story, bullets)`. -/
def pdfStep (acc : List PdfElem × List (List Char)) (b : Block) :
    List PdfElem × List (List Char) :=
  match b.type with
  | .h1 => (pdfFlush acc.1 acc.2 ++ [.pageBreak, .par "H1X".data b.text], [])
  | .h2 => (pdfFlush acc.1 acc.2 ++ [.par "H2X".data b.text], [])
  | .h3 => (pdfFlush acc.1 acc.2 ++ [.par "H3X".data b.text], [])
  | .bullet => (acc.1, acc.2 ++ [b.text])
  | .p => (pdfFlush acc.1 acc.2 ++ [.par "BodyX".data b.text, .spacer 4], [])

/-- The header elements `txt_to_pdf` emits before the block loop
(lines 197–201): the title paragraph, a spacer, the accent bar (a
1-point paragraph with a background color) and another spacer. -/
def pdfHeader (title : List Char) : List PdfElem :=
  [.par "TitleX".data title, .spacer 8, .bar, .spacer 10]

/-- `txt_to_pdf` (lines 182–233) as the story it builds: title header,
then the block loop with bullet buffering, then the final flush. -/
def txt_to_pdf (blocks : List Block) (title : List Char) : List PdfElem :=
  pdfFlush (blocks.foldl pdfStep (pdfHeader title, [])).1
    (blocks.foldl pdfStep (pdfHeader title, [])).2

/-!
### The flowing-document (DOCX) renderer
-/

/-- Elements of the document built by `txt_to_docx`; as for PDF, styles are
identified by name and color/size attributes are omitted. -/
inductive DocxElem where
  | par (style : List Char) (text : List Char)
  | pageBreak
deriving DecidableEq, Repr

/-- `txt_to_docx` (lines 239–282) as the paragraph sequence it builds. -/
def txt_to_docx (blocks : List Block) (title : List Char) : List DocxElem :=
  [.par "TitleX".data title, .par "Normal".data []] ++
    (blocks.map (fun b =>
      match b.type with
      | .h1 => ([.pageBreak, .par "H1X".data b.text] : List DocxElem)
      | .h2 => [.par "H2X".data b.text]
      | .h3 => [.par "H3X".data b.text]
      | .bullet => [.par "List Bullet".data b.text]
      | .p => [.par "BodyX".data b.text])).flatten

/-!
### The slide (PPTX) renderer
-/

/-- Layout constants of `txt_to_pptx` (lines 369–380).  `MAX_LINES` is
`int((TEXT_BOX_HEIGHT.inches * 72) // LINE_HEIGHT_PT)` with
`TEXT_BOX_HEIGHT = 5.0` inches and `LINE_HEIGHT_PT = 16 * 1.3`; the floor
of `360 / 20.8` is 17, and the tiny binary-float error in `20.8` does not
move the floor, so the exact rational computation below is faithful. -/
def CHAR_PER_LINE : Nat := 55

/-- Font size in points for slide body text. -/
def FONT_PT : Nat := 16

/-- Maximum content lines per slide: `(5.0 * 72) // (16 * 1.3) = 17`. -/
def MAX_LINES : Nat := (5 * 72 * 10) / (FONT_PT * 13)

/-- A slide of the produced deck.  `cover` is the title slide; `h1slide`
is a slide holding only a Heading1 text; `content` is a slide created by
`new_slide` (optionally with the Heading2 textbox of an `h2` block) whose
text frame received the wrapped lines of the recorded blocks, in order.
Backgrounds, accent bars and textbox geometry are decoration stamped at
creation time and are omitted. -/
inductive PSlide where
  | cover (title : List Char)
  | h1slide (text : List Char)
  | content (heading : Option (List Char)) (placed : List (List (List Char)))
deriving DecidableEq, Repr

/-- The mutable state of the `txt_to_pptx` loop: finalized slides in
order, the active slide's optional Heading2 text, the blocks (as wrapped
lines) placed on the active slide, and `used_lines`. -/
structure PptxState where
  done : List PSlide
  curHead : Option (List Char)
  curPlaced : List (List (List Char))
  used_lines : Nat
deriving DecidableEq, Repr

/-- One iteration of the block loop of `txt_to_pptx` (lines 429–492):
soften the text, wrap it at `CHAR_PER_LINE`, take `needed = max(1, len(lines))`;
a Heading1 finalizes the active slide, adds a dedicated heading slide and
starts a fresh content slide with the counter reset; a Heading2 finalizes
the active slide and starts a headed content slide with the counter reset;
anything else goes through `ensure_space` (new slide and counter reset when
`needed + used_lines > MAX_LINES`) and is then placed, adding `needed` to
the counter. -/
def pptxStep (st : PptxState) (blk : Block) : PptxState :=
  let tx := soften blk.text
  let lines := wrapInline tx CHAR_PER_LINE
  let needed := max 1 lines.length
  match blk.type with
  | .h1 => ⟨st.done ++ [.content st.curHead st.curPlaced, .h1slide tx], none, [], 0⟩
  | .h2 => ⟨st.done ++ [.content st.curHead st.curPlaced], some tx, [], 0⟩
  | _ =>
    if needed + st.used_lines > MAX_LINES then
      ⟨st.done ++ [.content st.curHead st.curPlaced], none, [lines], needed⟩
    else
      ⟨st.done, st.curHead, st.curPlaced ++ [lines], st.used_lines + needed⟩

/-- The deck a loop state stands for: the finalized slides followed by the
active content slide. -/
def pptxSlides (st : PptxState) : List PSlide :=
  st.done ++ [.content st.curHead st.curPlaced]

/-- `txt_to_pptx` (lines 332–495) as the slide deck it builds: the cover,
then the block loop starting from a fresh content slide, then the active
slide is part of the saved deck. -/
def txt_to_pptx (blocks : List Block) (title : List Char) : List PSlide :=
  pptxSlides (blocks.foldl pptxStep ⟨[.cover title], none, [], 0⟩)

/-- Sum over a slide's placed blocks of their needed-line counts
(`max 1 (number of wrapped lines)`). -/
def needSum (placed : List (List (List Char))) : Nat :=
  (placed.map (fun ls => max 1 ls.length)).sum

/-- The capacity discipline a finished slide satisfies: a content slide
either fits (`needSum ≤ MAX_LINES`), or holds exactly one block whose own
needed-line count exceeds `MAX_LINES` (a block's wrapped lines are placed
as one contiguous unit and are never split across slides); cover and
heading slides carry no capacity-counted content. -/
def slideOK (s : PSlide) : Prop :=
  match s with
  | .content _ placed =>
      needSum placed ≤ MAX_LINES ∨ ∃ ls, placed = [ls] ∧ MAX_LINES < max 1 ls.length
  | _ => True

/-- Whether a slide is a content slide whose needed-line total exceeds
`MAX_LINES`. -/
def isContentOver (s : PSlide) : Bool :=
  match s with
  | .content _ placed => decide (needSum placed > MAX_LINES)
  | _ => false

/-- Number of capacity-violating content slides in a deck. -/
def capacityViolations (deck : List PSlide) : Nat := (deck.filter isContentOver).length

/-- Number of content slides in a deck. -/
def contentCount (deck : List PSlide) : Nat :=
  (deck.filter (fun s => match s with | .content _ _ => true | _ => false)).length

/-!
### The entry point `file_generator`
-/

/-- Python `str.replace(old, new)`: replace every non-overlapping
occurrence, scanning left to right (fuelled; every replacement consumes at
least one character since `old` is nonempty at every call site). -/
def pyReplaceF (old new : List Char) : Nat → List Char → List Char
  | _, [] => []
  | 0, l => l
  | fuel + 1, c :: cs =>
    if old ≠ [] ∧ old.isPrefixOf (c :: cs) then
      new ++ pyReplaceF old new fuel ((c :: cs).drop old.length)
    else c :: pyReplaceF old new fuel cs

/-- Python `str.replace(old, new)` over a whole string. -/
def pyReplace (old new l : List Char) : List Char := pyReplaceF old new l.length l

/-- Contents written to disk by one `file_generator` call.  Rendered
documents are recorded as the structures the renderers build. -/
inductive FileContent where
  | rawText (s : List Char)
  | pdfDoc (story : List PdfElem)
  | docxDoc (elems : List DocxElem)
  | pptxDeck (slides : List PSlide)
deriving DecidableEq, Repr

/-- Observable outcome of a `file_generator` call: the ordered list of
`(path, contents)` file writes it performs, and the returned path. -/
structure GenResult where
  writes : List (List Char × FileContent)
  ret : List Char
deriving DecidableEq, Repr

/-- Path resolution of `file_generator` (lines 151–153): the hint if
given, else `os.path.flatten(DEFAULT_SAVE_PATH, topic.replace(" ", "_") + ".txt")`
(the path separator is written `'/'`; `DEFAULT_SAVE_PATH` is passed in as
`defaultDir`, since it is the machine-dependent
`Path.home() / "Documents" / "AssistantOutputs"`). -/
def resolveSavePath (topic : List Char) (save_path : Option (List Char))
    (defaultDir : List Char) : List Char :=
  match save_path with
  | some p => p
  | none => defaultDir ++ '/' :: (pyReplace " ".data "_".data topic ++ ".txt".data)

/-- `file_generator` (lines 130–171), from the point where the LLM
response text `respText` is in hand (the `genai` call is an external
collaborator): strip the response, parse it into blocks, resolve the save
path, always write the raw text there, then depending on `filetype`
render and write the corresponding document at the path with `".txt"`
replaced by the format extension and return that path (or return the raw
path for any other `filetype`).  The best-effort `open_file` side effect
is external and not part of the persisted outcome. -/
def file_generator (topic respText filetype : List Char)
    (save_path : Option (List Char)) (defaultDir : List Char) : GenResult :=
  let raw := pyStrip respText
  let blocks := parse_txt_structure (some raw)
  let sp := resolveSavePath topic save_path defaultDir
  if filetype = "pdf".data then
    let out := pyReplace ".txt".data ".pdf".data sp
    ⟨[(sp, .rawText raw), (out, .pdfDoc (txt_to_pdf blocks topic))], out⟩
  else if filetype = "docx".data then
    let out := pyReplace ".txt".data ".docx".data sp
    ⟨[(sp, .rawText raw), (out, .docxDoc (txt_to_docx blocks topic))], out⟩
  else if filetype = "pptx".data then
    let out := pyReplace ".txt".data ".pptx".data sp
    ⟨[(sp, .rawText raw), (out, .pptxDeck (txt_to_pptx blocks topic))], out⟩
  else ⟨[(sp, .rawText raw)], sp⟩

/-- Maximal runs of consecutive bullet blocks, as bullet-text groups.
Written from the specification's words for the grouped-flush property: a
run is accumulated while bullet blocks continue and closed by a non-bullet
block or the end of the sequence; empty runs do not occur. -/
def bulletRunsAux (carry : List (List Char)) : List Block → List (List (List Char))
  | [] => if carry = [] then [] else [carry]
  | b :: bs =>
    if b.type = .bullet then bulletRunsAux (carry ++ [b.text]) bs
    else if carry = [] then bulletRunsAux [] bs
    else carry :: bulletRunsAux [] bs

/-- The maximal bullet runs of a block sequence. -/
def bulletRuns (blocks : List Block) : List (List (List Char)) := bulletRunsAux [] blocks

/-- The grouped bullet lists of a story, in order. -/
def storyBulletLists (story : List PdfElem) : List (List (List Char)) :=
  story.filterMap (fun e => match e with | .bulletList items => some items | _ => none)

/-- Whether a story element is a styled paragraph. -/
def isPar (e : PdfElem) : Bool := match e with | .par _ _ => true | _ => false

/-- The text of a styled paragraph story element, if it is one. -/
def parText (e : PdfElem) : Option (List Char) :=
  match e with | .par _ t => some t | _ => none

/-!
## Lemmas about the Python string primitives
-/

theorem dropWhile_head_not {p : Char → Bool} : ∀ {l : List Char} {c : Char},
    (l.dropWhile p).head? = some c → p c = false := by
  intro l
  induction l with
  | nil => intro c h; simp [List.dropWhile] at h
  | cons a as ih =>
    intro c h
    rw [List.dropWhile_cons] at h
    by_cases hpa : p a = true
    · rw [if_pos hpa] at h; exact ih h
    · rw [if_neg hpa] at h
      simp at h
      subst h
      simpa using hpa

theorem isPrefixOf_append {l₁ l₂ : List Char} (h : l₁.isPrefixOf l₂ = true) :
    ∃ t, l₂ = l₁ ++ t := by
  have h2 : l₁ <+: l₂ := by simpa using h
  obtain ⟨t, ht⟩ := h2
  exact ⟨t, ht.symm⟩

theorem pyRstrip_eq_append (l : List Char) :
    ∃ t, l = pyRstrip l ++ t ∧ ∀ c ∈ t, isPySpace c = true := by
  refine ⟨(l.reverse.takeWhile isPySpace).reverse, ?_, ?_⟩
  · unfold pyRstrip
    rw [← List.reverse_append, List.takeWhile_append_dropWhile, List.reverse_reverse]
  · intro c hc
    rw [List.mem_reverse] at hc
    exact List.mem_takeWhile_imp hc

theorem pyRstrip_head? {l : List Char} {c : Char} (h : (pyRstrip l).head? = some c) :
    l.head? = some c := by
  obtain ⟨t, ht, -⟩ := pyRstrip_eq_append l
  rw [ht, List.head?_append, h]
  rfl

theorem pyRstrip_getLast_not {l : List Char} {c : Char}
    (h : (pyRstrip l).getLast? = some c) : isPySpace c = false := by
  unfold pyRstrip at h
  rw [List.getLast?_reverse] at h
  exact dropWhile_head_not h

theorem pyLstrip_eq_self {l : List Char}
    (h : ∀ c, l.head? = some c → isPySpace c = false) : pyLstrip l = l := by
  cases l with
  | nil => rfl
  | cons a as =>
    unfold pyLstrip
    rw [List.dropWhile_cons, if_neg]
    simp [h a rfl]

theorem pyRstrip_eq_self {l : List Char}
    (h : ∀ c, l.getLast? = some c → isPySpace c = false) : pyRstrip l = l := by
  unfold pyRstrip
  cases hrev : l.reverse with
  | nil => simp [List.dropWhile]; simpa using congrArg List.reverse hrev
  | cons a as =>
    have ha : l.getLast? = some a := by
      rw [← List.head?_reverse, hrev]; rfl
    rw [List.dropWhile_cons, if_neg (by simp [h a ha]), ← hrev, List.reverse_reverse]

theorem pyStrip_eq_self {l : List Char}
    (h1 : ∀ c, l.head? = some c → isPySpace c = false)
    (h2 : ∀ c, l.getLast? = some c → isPySpace c = false) : pyStrip l = l := by
  unfold pyStrip
  rw [pyLstrip_eq_self h1, pyRstrip_eq_self h2]

theorem pyStrip_head_not {l : List Char} {c : Char}
    (h : (pyStrip l).head? = some c) : isPySpace c = false := by
  unfold pyStrip at h
  exact dropWhile_head_not (pyRstrip_head? h)

theorem pyStrip_getLast_not {l : List Char} {c : Char}
    (h : (pyStrip l).getLast? = some c) : isPySpace c = false :=
  pyRstrip_getLast_not h

theorem pyStrip_idem (l : List Char) : pyStrip (pyStrip l) = pyStrip l :=
  pyStrip_eq_self (fun _ h => pyStrip_head_not h) (fun _ h => pyStrip_getLast_not h)

theorem mem_pyStrip {l : List Char} {c : Char} (h : c ∈ pyStrip l) : c ∈ l := by
  unfold pyStrip pyRstrip pyLstrip at h
  rw [List.mem_reverse] at h
  have h2 := (List.dropWhile_sublist isPySpace).subset h
  rw [List.mem_reverse] at h2
  exact (List.dropWhile_sublist isPySpace).subset h2

theorem pyWordsAux_wordlike : ∀ (l acc : List Char), (∀ c ∈ acc, isPySpace c = false) →
    ∀ w ∈ pyWordsAux l acc, w ≠ [] ∧ ∀ c ∈ w, isPySpace c = false := by
  intro l
  induction l with
  | nil =>
    intro acc hacc w hw
    unfold pyWordsAux at hw
    by_cases h : acc = []
    · simp [h] at hw
    · rw [if_neg h] at hw
      simp at hw
      subst hw
      refine ⟨by simpa using h, ?_⟩
      intro c hc
      exact hacc c (by simpa using hc)
  | cons a as ih =>
    intro acc hacc w hw
    unfold pyWordsAux at hw
    by_cases hsp : isPySpace a = true
    · rw [if_pos hsp] at hw
      by_cases h : acc = []
      · rw [if_pos h] at hw
        exact ih [] (by simp) w hw
      · rw [if_neg h] at hw
        rcases List.mem_cons.mp hw with h1 | h1
        · subst h1
          refine ⟨by simpa using h, ?_⟩
          intro c hc
          exact hacc c (by simpa using hc)
        · exact ih [] (by simp) w h1
    · rw [if_neg hsp] at hw
      refine ih (a :: acc) ?_ w hw
      intro c hc
      rcases List.mem_cons.mp hc with h1 | h1
      · subst h1; simpa using hsp
      · exact hacc c h1

theorem pyWords_wordlike {l : List Char} :
    ∀ w ∈ pyWords l, w ≠ [] ∧ ∀ c ∈ w, isPySpace c = false :=
  pyWordsAux_wordlike l [] (by simp)

/-!
## Lemmas about the `re.sub` scanner and its matchers
-/

theorem runLen_le_length {p : Char → Bool} : ∀ {l : List Char}, runLen p l ≤ l.length := by
  intro l
  induction l with
  | nil => simp [runLen]
  | cons a as ih =>
    unfold runLen
    by_cases h : p a = true
    · rw [if_pos h]; simpa using ih
    · rw [if_neg h]; simp

theorem take_runLen {p : Char → Bool} : ∀ (l : List Char), l.take (runLen p l) = l.takeWhile p := by
  intro l
  induction l with
  | nil => rfl
  | cons a as ih =>
    unfold runLen
    by_cases h : p a = true
    · rw [if_pos h, List.take_succ_cons, List.takeWhile_cons, if_pos h, ih]
    · rw [if_neg h, List.take_zero, List.takeWhile_cons, if_neg h]

theorem drop_runLen {p : Char → Bool} : ∀ (l : List Char), l.drop (runLen p l) = l.dropWhile p := by
  intro l
  induction l with
  | nil => rfl
  | cons a as ih =>
    unfold runLen
    by_cases h : p a = true
    · rw [if_pos h, List.drop_succ_cons, List.dropWhile_cons, if_pos h, ih]
    · rw [if_neg h, List.drop_zero, List.dropWhile_cons, if_neg h]

theorem take_le_runLen {p : Char → Bool} : ∀ {l : List Char} {i : Nat},
    i ≤ runLen p l → ∀ c ∈ l.take i, p c = true := by
  intro l
  induction l with
  | nil => intro i _ c hc; simp at hc
  | cons a as ih =>
    intro i hi c hc
    unfold runLen at hi
    by_cases h : p a = true
    · rw [if_pos h] at hi
      cases i with
      | zero => simp at hc
      | succ j =>
        rw [List.take_succ_cons] at hc
        rcases List.mem_cons.mp hc with h1 | h1
        · subst h1; exact h
        · exact ih (Nat.le_of_succ_le_succ hi) c h1
    · rw [if_neg h] at hi
      interval_cases i
      simp at hc

theorem takeWhile_tick_replicate : ∀ (l : List Char),
    l.takeWhile (fun x => x = '`') = List.replicate (runLen (fun x => x = '`') l) '`' := by
  intro l
  induction l with
  | nil => rfl
  | cons a as ih =>
    by_cases h : a = '`'
    · subst h
      simp [List.takeWhile_cons, runLen, ih, List.replicate_succ]
    · simp [List.takeWhile_cons, runLen, h]

theorem subScanF_id {tryM : List Char → Option (Nat × List Char)}
    (htry : ∀ l, (∀ c ∈ l, isMarkupChar c = false) → tryM l = none) :
    ∀ (fuel : Nat) (l : List Char), (∀ c ∈ l, isMarkupChar c = false) →
      subScanF tryM fuel l = l := by
  intro fuel
  induction fuel with
  | zero => intro l _; cases l <;> rfl
  | succ n ih =>
    intro l hl
    cases l with
    | nil => rfl
    | cons c cs =>
      unfold subScanF
      rw [htry _ hl]
      rw [ih cs (fun x hx => hl x (List.mem_cons_of_mem c hx))]

theorem subScan_id {tryM : List Char → Option (Nat × List Char)}
    (htry : ∀ l, (∀ c ∈ l, isMarkupChar c = false) → tryM l = none)
    {l : List Char} (hl : ∀ c ∈ l, isMarkupChar c = false) : subScan tryM l = l :=
  subScanF_id htry l.length l hl

theorem subScanF_filter {tryM : List Char → Option (Nat × List Char)} {Q : Char → Bool}
    (htry : ∀ l n r, tryM l = some (n, r) → 1 ≤ n ∧ (l.take n).filter Q = r.filter Q) :
    ∀ (fuel : Nat) (l : List Char), l.length ≤ fuel →
      (subScanF tryM fuel l).filter Q = l.filter Q := by
  intro fuel
  induction fuel with
  | zero =>
    intro l hl
    have : l = [] := List.length_eq_zero.mp (Nat.le_zero.mp hl)
    subst this; rfl
  | succ m ih =>
    intro l hl
    cases l with
    | nil => rfl
    | cons c cs =>
      unfold subScanF
      cases h : tryM (c :: cs) with
      | none =>
        rw [List.filter_cons, List.filter_cons,
          ih cs (by simpa using Nat.le_of_succ_le_succ hl)]
      | some v =>
        obtain ⟨n, r⟩ := v
        obtain ⟨hn, hf⟩ := htry _ _ _ h
        obtain ⟨k, rfl⟩ := Nat.exists_eq_add_of_le hn
        rw [List.filter_append, hf.symm]
        have hdrop : (c :: cs).drop (1 + k) = cs.drop (1 + k - 1) := by
          rw [Nat.add_comm 1 k, Nat.add_sub_cancel, List.drop_succ_cons]
        calc ((c :: cs).take (1 + k)).filter Q ++
              (subScanF tryM m (cs.drop (1 + k - 1))).filter Q
            = ((c :: cs).take (1 + k)).filter Q ++ (cs.drop (1 + k - 1)).filter Q := by
              rw [ih _ (by
                rw [List.length_drop]
                have h2 : (c :: cs).length = cs.length + 1 := List.length_cons c cs
                omega)]
          _ = ((c :: cs).take (1 + k)).filter Q ++ ((c :: cs).drop (1 + k)).filter Q := by
              rw [hdrop]
          _ = (c :: cs).filter Q := by
              rw [← List.filter_append, List.take_append_drop]

theorem subScan_filter {tryM : List Char → Option (Nat × List Char)} {Q : Char → Bool}
    (htry : ∀ l n r, tryM l = some (n, r) → 1 ≤ n ∧ (l.take n).filter Q = r.filter Q)
    (l : List Char) : (subScan tryM l).filter Q = l.filter Q :=
  subScanF_filter htry l.length l (Nat.le_refl _)

theorem findClose_spec {cls : List Char} : ∀ {l g rest : List Char},
    findClose cls l = some (g, rest) → g ≠ [] ∧ l = g ++ cls ++ rest := by
  intro l
  induction l with
  | nil => intro g rest h; simp [findClose] at h
  | cons c cs ih =>
    intro g rest h
    unfold findClose at h
    by_cases hnl : c = '\n'
    · rw [if_pos hnl] at h; simp at h
    · rw [if_neg hnl] at h
      by_cases hpre : cls.isPrefixOf cs = true
      · rw [if_pos hpre] at h
        simp at h
        obtain ⟨t, ht⟩ := isPrefixOf_append hpre
        refine ⟨by simp [← h.1], ?_⟩
        rw [← h.1, ← h.2, ht, List.drop_left]
        simp
      · rw [if_neg hpre] at h
        cases hrec : findClose cls cs with
        | none => rw [hrec] at h; simp at h
        | some v =>
          obtain ⟨g', rest'⟩ := v
          rw [hrec] at h
          simp at h
          obtain ⟨hg, hne⟩ := ih hrec
          refine ⟨by simp [← h.1], ?_⟩
          rw [← h.1, ← h.2, hne]
          simp

theorem tryPair_filter {delim : List Char} (hne : delim ≠ [])
    (hd : ∀ c ∈ delim, isMarkupChar c = true) {Q : Char → Bool}
    (hQ : ∀ c, isMarkupChar c = true → Q c = false) :
    ∀ l n r, tryPair delim l = some (n, r) → 1 ≤ n ∧ (l.take n).filter Q = r.filter Q := by
  intro l n r h
  unfold tryPair at h
  by_cases hpre : delim.isPrefixOf l = true
  · rw [if_pos hpre] at h
    cases hfc : findClose delim (l.drop delim.length) with
    | none => rw [hfc] at h; simp at h
    | some v =>
      obtain ⟨g, rest⟩ := v
      rw [hfc] at h
      simp at h
      obtain ⟨hg, hsplit⟩ := findClose_spec hfc
      obtain ⟨t, ht⟩ := isPrefixOf_append hpre
      have hl : l = delim ++ g ++ delim ++ rest := by
        rw [ht]
        have : t = l.drop delim.length := by rw [ht, List.drop_left]
        rw [this, hsplit]
        simp
      have hlen : l.length = delim.length + g.length + delim.length + rest.length := by
        rw [hl]; simp [List.length_append]; omega
      have hn : n = delim.length + g.length + delim.length := by
        rw [← h.1, hlen]; omega
      have hdlen : 1 ≤ delim.length := by
        cases delim with
        | nil => exact absurd rfl hne
        | cons a as => simp
      constructor
      · omega
      · have htake : l.take n = delim ++ g ++ delim := by
          rw [hl, hn]
          have : delim ++ g ++ delim ++ rest = (delim ++ g ++ delim) ++ rest := by simp
          rw [this]
          have hlen2 : delim.length + g.length + delim.length = (delim ++ g ++ delim).length := by
            simp [List.length_append]; omega
          rw [hlen2, List.take_left]
        rw [htake, ← h.2]
        have hdel : delim.filter Q = [] := by
          rw [List.filter_eq_nil_iff]
          intro a ha
          simp [hQ a (hd a ha)]
        simp [List.filter_append, hdel]
  · rw [if_neg hpre] at h; simp at h

theorem findTickClose_spec : ∀ {l g rest : List Char},
    findTickClose l = some (g, rest) →
      g ≠ [] ∧ ∃ m, 1 ≤ m ∧ l = g ++ List.replicate m '`' ++ rest := by
  intro l
  induction l with
  | nil => intro g rest h; simp [findTickClose] at h
  | cons c cs ih =>
    intro g rest h
    unfold findTickClose at h
    by_cases hnl : c = '\n'
    · rw [if_pos hnl] at h; simp at h
    · rw [if_neg hnl] at h
      by_cases htick : cs.headD ' ' = '`' ∧ cs ≠ []
      · rw [if_pos htick] at h
        simp at h
        obtain ⟨hhead, hcs⟩ := htick
        have hcs2 : ∃ cs', cs = '`' :: cs' := by
          cases cs with
          | nil => exact absurd rfl hcs
          | cons x xs => exact ⟨xs, by simpa using congrArg (fun y => y :: xs) hhead⟩
        obtain ⟨cs', rfl⟩ := hcs2
        set m := runLen (fun x => x = '`') ('`' :: cs') with hm
        have hm1 : 1 ≤ m := by
          rw [hm]; unfold runLen; simp
        refine ⟨by simp [← h.1], m, hm1, ?_⟩
        rw [← h.1, ← h.2]
        have : ('`' :: cs') = List.replicate m '`' ++ ('`' :: cs').drop m := by
          conv_lhs =>
            rw [← @List.takeWhile_append_dropWhile Char (fun x => x = '`') ('`' :: cs')]
          rw [takeWhile_tick_replicate, drop_runLen]
        conv_lhs => rw [this]
        simp
      · rw [if_neg htick] at h
        cases hrec : findTickClose cs with
        | none => rw [hrec] at h; simp at h
        | some v =>
          obtain ⟨g', rest'⟩ := v
          rw [hrec] at h
          simp at h
          obtain ⟨hg, m, hm1, hcs⟩ := ih hrec
          refine ⟨by simp [← h.1], m, hm1, ?_⟩
          rw [← h.1, ← h.2, hcs]
          simp

theorem tryTicksFrom_filter {Q : Char → Bool}
    (hQ : ∀ c, isMarkupChar c = true → Q c = false) :
    ∀ (t1 : Nat) (l : List Char) (n : Nat) (r : List Char),
      t1 ≤ runLen (fun x => x = '`') l → tryTicksFrom t1 l = some (n, r) →
        1 ≤ n ∧ (l.take n).filter Q = r.filter Q := by
  intro t1
  induction t1 with
  | zero => intro l n r _ h; simp [tryTicksFrom] at h
  | succ t ih =>
    intro l n r hle h
    unfold tryTicksFrom at h
    cases hfc : findTickClose (l.drop (t + 1)) with
    | none =>
      rw [hfc] at h
      exact ih l n r (Nat.le_of_succ_le hle) h
    | some v =>
      obtain ⟨g, rest⟩ := v
      rw [hfc] at h
      simp at h
      obtain ⟨hg, m, hm1, hdropeq⟩ := findTickClose_spec hfc
      have hrl : runLen (fun x => x = '`') l ≤ l.length := runLen_le_length
      have htl : t + 1 ≤ l.length := Nat.le_trans hle hrl
      have hsplit : l = l.take (t + 1) ++ (g ++ List.replicate m '`' ++ rest) := by
        rw [← hdropeq, List.take_append_drop]
      have hlen : l.length = (t + 1) + (g.length + m + rest.length) := by
        conv_lhs => rw [hsplit]
        simp [List.length_append, List.length_take, Nat.min_eq_left htl]
        omega
      have hn : n = (t + 1) + g.length + m := by rw [← h.1]; omega
      constructor
      · omega
      · have htake : l.take n = l.take (t + 1) ++ g ++ List.replicate m '`' := by
          conv_lhs => rw [hsplit]
          have h2 : l.take (t + 1) ++ (g ++ List.replicate m '`' ++ rest) =
              (l.take (t + 1) ++ g ++ List.replicate m '`') ++ rest := by simp
          rw [h2, hn]
          have h3 : t + 1 + g.length + m =
              (l.take (t + 1) ++ g ++ List.replicate m '`').length := by
            simp [List.length_append, List.length_take, Nat.min_eq_left htl]
            omega
          rw [h3, List.take_left]
        rw [htake, ← h.2]
        have hticks : (l.take (t + 1)).filter Q = [] := by
          rw [List.filter_eq_nil_iff]
          intro a ha
          have : a = '`' := by simpa using take_le_runLen hle a ha
          subst this
          exact (by simpa using hQ '`' (by simp [isMarkupChar]))
        have hrep : (List.replicate m '`').filter Q = [] := by
          rw [List.filter_eq_nil_iff]
          intro a ha
          have : a = '`' := List.eq_of_mem_replicate ha
          subst this
          exact (by simpa using hQ '`' (by simp [isMarkupChar]))
        simp [List.filter_append, hticks, hrep]

theorem tryTicks_filter {Q : Char → Bool}
    (hQ : ∀ c, isMarkupChar c = true → Q c = false) :
    ∀ l n r, tryTicks l = some (n, r) → 1 ≤ n ∧ (l.take n).filter Q = r.filter Q := by
  intro l n r h
  exact tryTicksFrom_filter hQ _ l n r (Nat.le_refl _) h

theorem tryStray_filter {Q : Char → Bool}
    (hQ : ∀ c, isMarkupChar c = true → Q c = false) :
    ∀ l n r, tryStray l = some (n, r) → 1 ≤ n ∧ (l.take n).filter Q = r.filter Q := by
  intro l n r h
  cases l with
  | nil => simp [tryStray] at h
  | cons c cs =>
    have h' : (if isMarkupChar c = true then
        some (runLen isMarkupChar (c :: cs), ([] : List Char)) else none) = some (n, r) := h
    by_cases hm : isMarkupChar c = true
    · rw [if_pos hm] at h'
      simp at h'
      constructor
      · rw [← h'.1]; unfold runLen; rw [if_pos hm]; omega
      · rw [← h'.1, h'.2, take_runLen]
        simp only [List.filter_nil]
        rw [List.filter_eq_nil_iff]
        intro a ha
        simp [hQ a (List.mem_takeWhile_imp ha)]
    · rw [if_neg hm] at h'; simp at h'

theorem tryTicks_clean {l : List Char} (h : ∀ c ∈ l, isMarkupChar c = false) :
    tryTicks l = none := by
  cases l with
  | nil => rfl
  | cons c cs =>
    have hc : c ≠ '`' := by
      intro he
      subst he
      simpa [isMarkupChar] using h '`' (by simp)
    unfold tryTicks runLen
    rw [if_neg (by simpa using hc)]
    rfl

theorem tryPair_clean {delim l : List Char} (hne : delim ≠ [])
    (hd : ∀ c ∈ delim, isMarkupChar c = true)
    (h : ∀ c ∈ l, isMarkupChar c = false) : tryPair delim l = none := by
  unfold tryPair
  rw [if_neg]
  intro hpre
  obtain ⟨t, rfl⟩ := isPrefixOf_append hpre
  cases delim with
  | nil => exact absurd rfl hne
  | cons a as =>
    have h1 : isMarkupChar a = true := hd a (by simp)
    have h2 : isMarkupChar a = false := h a (by simp)
    rw [h1] at h2
    exact absurd h2 (by simp)

theorem tryStray_clean {l : List Char} (h : ∀ c ∈ l, isMarkupChar c = false) :
    tryStray l = none := by
  cases l with
  | nil => rfl
  | cons c cs =>
    show (if isMarkupChar c = true then
        some (runLen isMarkupChar (c :: cs), ([] : List Char)) else none) = none
    rw [if_neg]
    simp [h c (by simp)]

theorem filter_dropWhile_of_imp {p q : Char → Bool}
    (hpq : ∀ c, p c = true → q c = false) :
    ∀ (l : List Char), (l.dropWhile p).filter q = l.filter q := by
  intro l
  induction l with
  | nil => rfl
  | cons a as ih =>
    rw [List.dropWhile_cons]
    by_cases ha : p a = true
    · rw [if_pos ha, ih, List.filter_cons_of_neg (by simp [hpq a ha])]
    · rw [if_neg ha]

theorem subScanF_stray : ∀ (fuel : Nat) (l : List Char), l.length ≤ fuel →
    subScanF tryStray fuel l = l.filter (fun c => !isMarkupChar c) := by
  intro fuel
  induction fuel with
  | zero =>
    intro l hl
    have : l = [] := List.length_eq_zero.mp (Nat.le_zero.mp hl)
    subst this; rfl
  | succ m ih =>
    intro l hl
    cases l with
    | nil => rfl
    | cons c cs =>
      unfold subScanF
      by_cases hm : isMarkupChar c = true
      · have htry : tryStray (c :: cs) = some (runLen isMarkupChar (c :: cs), []) := by
          show (if isMarkupChar c = true then
              some (runLen isMarkupChar (c :: cs), ([] : List Char)) else none) = _
          rw [if_pos hm]
        rw [htry]
        have hrl : runLen isMarkupChar (c :: cs) = runLen isMarkupChar cs + 1 := by
          rw [show runLen isMarkupChar (c :: cs) =
            if isMarkupChar c = true then runLen isMarkupChar cs + 1 else 0 from rfl, if_pos hm]
        rw [hrl]
        simp only [Nat.add_sub_cancel, List.nil_append]
        rw [drop_runLen, ih _ (by
          have h1 := (@List.dropWhile_sublist Char cs isMarkupChar).length_le
          have h2 : (c :: cs).length = cs.length + 1 := List.length_cons c cs
          omega)]
        rw [List.filter_cons_of_neg (by simp [hm])]
        rw [filter_dropWhile_of_imp (fun x hx => by simp [hx]) cs]
      · have htry : tryStray (c :: cs) = none := by
          show (if isMarkupChar c = true then
              some (runLen isMarkupChar (c :: cs), ([] : List Char)) else none) = none
          rw [if_neg hm]
        rw [htry, ih cs (by simpa using Nat.le_of_succ_le_succ hl),
          List.filter_cons_of_pos (by simp [hm])]

theorem subScan_stray (l : List Char) :
    subScan tryStray l = l.filter (fun c => !isMarkupChar c) :=
  subScanF_stray l.length l (Nat.le_refl _)

theorem filter_pyStrip_of_imp {q : Char → Bool}
    (hq : ∀ c, isPySpace c = true → q c = false) (l : List Char) :
    (pyStrip l).filter q = l.filter q := by
  unfold pyStrip pyRstrip pyLstrip
  rw [List.filter_reverse, filter_dropWhile_of_imp hq, List.filter_reverse,
    List.reverse_reverse, filter_dropWhile_of_imp hq]

theorem sanitize_filter {q : Char → Bool}
    (hm : ∀ c, isMarkupChar c = true → q c = false)
    (hs : ∀ c, isPySpace c = true → q c = false) (s : List Char) :
    (_sanitize_inline_markup s).filter q = s.filter q := by
  by_cases h0 : s = []
  · subst h0; rfl
  · unfold _sanitize_inline_markup
    rw [if_neg h0]
    have hdd : ∀ d : List Char, d ≠ [] → (∀ c ∈ d, isMarkupChar c = true) →
        ∀ (x : List Char), (subScan (tryPair d) x).filter q = x.filter q := by
      intro d hdne hdc x
      exact subScan_filter (tryPair_filter hdne hdc hm) x
    rw [filter_pyStrip_of_imp hs, subScan_stray, List.filter_filter]
    have hff : ∀ (x : List Char),
        List.filter (fun a => q a && !isMarkupChar a) x = List.filter q x := by
      intro x
      refine List.filter_congr ?_
      intro a _
      by_cases hqa : q a = true
      · have : isMarkupChar a = false := by
          by_cases hma : isMarkupChar a = true
          · rw [hm a hma] at hqa; exact absurd hqa (by simp)
          · simpa using hma
        simp [hqa, this]
      · simp [hqa]
    rw [hff,
      hdd "_".data (by decide) (by decide) _,
      hdd "*".data (by decide) (by decide) _,
      hdd "__".data (by decide) (by decide) _,
      hdd "**".data (by decide) (by decide) _,
      subScan_filter (tryTicks_filter hm)]

theorem sanitize_noMarkup {s : List Char} :
    ∀ c ∈ _sanitize_inline_markup s, isMarkupChar c = false := by
  intro c hc
  by_cases h0 : s = []
  · subst h0; simp [_sanitize_inline_markup] at hc
  · unfold _sanitize_inline_markup at hc
    rw [if_neg h0] at hc
    have hc2 := mem_pyStrip hc
    rw [subScan_stray] at hc2
    have := List.mem_filter.mp hc2
    simpa using this.2

theorem sanitize_stripped (s : List Char) :
    pyStrip (_sanitize_inline_markup s) = _sanitize_inline_markup s := by
  by_cases h0 : s = []
  · subst h0; rfl
  · conv_lhs => unfold _sanitize_inline_markup
    rw [if_neg h0]
    rw [pyStrip_idem]
    unfold _sanitize_inline_markup
    rw [if_neg h0]

theorem subScan_pair_id {delim : List Char} (hne : delim ≠ [])
    (hd : ∀ c ∈ delim, isMarkupChar c = true) {l : List Char}
    (hl : ∀ c ∈ l, isMarkupChar c = false) : subScan (tryPair delim) l = l :=
  subScan_id (fun _ hx => tryPair_clean hne hd hx) hl

theorem subScan_ticks_id {l : List Char}
    (hl : ∀ c ∈ l, isMarkupChar c = false) : subScan tryTicks l = l :=
  subScan_id (fun _ hx => tryTicks_clean hx) hl

theorem sanitize_of_clean {r : List Char} (hr : ∀ c ∈ r, isMarkupChar c = false)
    (hstrip : pyStrip r = r) : _sanitize_inline_markup r = r := by
  by_cases h0 : r = []
  · subst h0; rfl
  · unfold _sanitize_inline_markup
    rw [if_neg h0]
    rw [subScan_ticks_id hr,
      subScan_pair_id (by decide) (by decide) hr,
      subScan_pair_id (by decide) (by decide) hr,
      subScan_pair_id (by decide) (by decide) hr,
      subScan_pair_id (by decide) (by decide) hr,
      subScan_stray, List.filter_eq_self.mpr (fun a ha => by simp [hr a ha])]
    exact hstrip

theorem parse_block_text {text : List Char} {b : Block}
    (h : b ∈ parse_txt_structure (some text)) :
    ∃ s, b.text = _sanitize_inline_markup s := by
  unfold parse_txt_structure at h
  rw [List.mem_filterMap] at h
  obtain ⟨line, -, hline⟩ := h
  unfold parseLine at hline
  by_cases h1 : pyRstrip line = []
  · rw [if_pos h1] at hline; simp at hline
  · rw [if_neg h1] at hline
    split_ifs at hline <;>
      (simp only [Option.some.injEq] at hline; exact ⟨_, by rw [← hline]⟩)

/-!
## Claim theorems
-/

/-- C9: the markup-stripping transform is idempotent — for every input
string `s`, applying `_sanitize_inline_markup` twice yields the same
result as applying it once. -/
theorem C9_sanitize_idempotent (s : List Char) :
    _sanitize_inline_markup (_sanitize_inline_markup s) = _sanitize_inline_markup s :=
  sanitize_of_clean (fun _ hc => sanitize_noMarkup _ hc) (sanitize_stripped s)

/-- C10: every block produced by the Block Parser has text with no leading
or trailing whitespace — the sanitizer ends by trimming, so `str.strip` is
the identity on every parsed block's text. -/
theorem C10_block_text_stripped (text : List Char) (b : Block)
    (h : b ∈ parse_txt_structure (some text)) : pyStrip b.text = b.text := by
  obtain ⟨s, hs⟩ := parse_block_text h
  rw [hs]
  exact sanitize_stripped s

/-- Witness for C10 at the concrete input `"hi"`. -/
theorem C10_block_text_stripped_witness :
    pyStrip (Block.mk .p "hi".data).text = (Block.mk .p "hi".data).text :=
  C10_block_text_stripped "hi".data ⟨.p, "hi".data⟩ (by decide)

/-- C3 counterexample: the input line `"**"` is nonempty after stripping,
so it is not skipped, but sanitization deletes both characters and the
parser emits a paragraph block whose text is the empty string — refuting
the claim that every parsed block has non-empty text. -/
theorem C3_counterexample :
    parse_txt_structure (some "**".data) = [⟨.p, []⟩] := by decide

theorem sanitize_ne_nil {s : List Char}
    (hex : ∃ c ∈ s, isMarkupChar c = false ∧ isPySpace c = false) :
    _sanitize_inline_markup s ≠ [] := by
  intro hcontra
  obtain ⟨c, hc, hcm, hcs⟩ := hex
  have hq := @sanitize_filter (fun c => !isMarkupChar c && !isPySpace c)
    (fun a ha => by simp [ha]) (fun a ha => by simp [ha]) s
  rw [hcontra] at hq
  have hmem : c ∈ s.filter (fun c => !isMarkupChar c && !isPySpace c) :=
    List.mem_filter.mpr ⟨hc, by simp [hcm, hcs]⟩
  rw [← hq] at hmem
  simp at hmem

theorem parseLine_text {raw_line : List Char} {b : Block}
    (h : parseLine raw_line = some b) :
    b.text = _sanitize_inline_markup (lineContent raw_line) := by
  unfold parseLine at h
  unfold lineContent
  by_cases h0 : pyRstrip raw_line = []
  · rw [if_pos h0] at h
    simp at h
  · rw [if_neg h0] at h
    split_ifs at h ⊢ <;>
      (simp only [Option.some.injEq] at h; rw [← h])

/-- C3 amended: every block produced by the Block Parser comes from a
specific line of the input; its text is the sanitizer applied to that
line's own content (the stripped line with its structural prefix
removed), and it is non-empty whenever that content contains at least
one character that is neither an emphasis marker nor whitespace.  A line
consisting solely of marker characters survives the blank-line filter but
yields a block with empty text (the counterexample). -/
theorem C3_amended (text : List Char) (b : Block)
    (hb : b ∈ parse_txt_structure (some text)) :
    ∃ line ∈ pySplitlines text, parseLine line = some b ∧
      b.text = _sanitize_inline_markup (lineContent line) ∧
      ((∃ c ∈ lineContent line, isMarkupChar c = false ∧ isPySpace c = false) →
        b.text ≠ []) := by
  unfold parse_txt_structure at hb
  rw [List.mem_filterMap] at hb
  obtain ⟨line, hmem, hline⟩ := hb
  refine ⟨line, hmem, hline, parseLine_text hline, ?_⟩
  intro hex
  rw [parseLine_text hline]
  exact sanitize_ne_nil hex

/-- Witness for C3 amended at the concrete input `"hi"`: the paragraph
block is tied to the line `"hi"`, whose content has a non-marker
non-whitespace character, so its text is non-empty. -/
theorem C3_amended_witness :
    ∃ line ∈ pySplitlines "hi".data,
      parseLine line = some (Block.mk .p "hi".data) ∧
      (Block.mk .p "hi".data).text = _sanitize_inline_markup (lineContent line) ∧
      ((∃ c ∈ lineContent line, isMarkupChar c = false ∧ isPySpace c = false) →
        (Block.mk .p "hi".data).text ≠ []) :=
  C3_amended "hi".data ⟨.p, "hi".data⟩ (by decide)

/-!
## Lemmas for the layout engine
-/

theorem mem_of_head? {l : List Char} {c : Char} (h : l.head? = some c) : c ∈ l := by
  cases l with
  | nil => simp at h
  | cons a as => simp at h; subst h; simp

theorem mem_of_getLast? {l : List Char} {c : Char} (h : l.getLast? = some c) : c ∈ l := by
  rw [← List.head?_reverse] at h
  have := mem_of_head? h
  simpa using this

theorem linesGo_budget {budget : Nat} {W : List (List Char)} :
    ∀ (ws : List (List Char)) (cur : List Char),
      (cur.length ≤ budget ∨ cur ∈ W) → (∀ w ∈ ws, w ∈ W) →
      ∀ ln ∈ linesGo budget cur ws, ln.length ≤ budget ∨ ln ∈ W := by
  intro ws
  induction ws with
  | nil =>
    intro cur hc _ ln hln
    simp [linesGo] at hln
    subst hln
    exact hc
  | cons w ws ih =>
    intro cur hc hws ln hln
    unfold linesGo at hln
    by_cases hfit : cur.length + 1 + w.length ≤ budget
    · rw [if_pos hfit] at hln
      refine ih _ (Or.inl ?_) (fun x hx => hws x (by simp [hx])) ln hln
      simp only [List.length_append, List.length_cons]
      omega
    · rw [if_neg hfit] at hln
      rcases List.mem_cons.mp hln with h | h
      · subst h; exact hc
      · exact ih w (Or.inr (hws w (by simp))) (fun x hx => hws x (by simp [hx])) ln h

theorem wrapFold_budget {budget : Nat} {W : List (List Char)} :
    ∀ (ws : List (List Char)) (lines : List (List Char)) (cur : List Char),
      (∀ ln ∈ lines, ln.length ≤ budget ∨ ln ∈ W) →
      (cur = [] ∨ cur.length ≤ budget ∨ cur ∈ W) →
      (∀ w ∈ ws, w ∈ W) →
      ∀ ln ∈ wrapFinish (ws.foldl (wrapStep budget) (lines, cur)),
        ln.length ≤ budget ∨ ln ∈ W := by
  intro ws
  induction ws with
  | nil =>
    intro lines cur hlines hcur _ ln hln
    unfold wrapFinish at hln
    by_cases h0 : cur = []
    · simp [h0] at hln
      exact hlines ln hln
    · rw [if_neg (by simpa using h0)] at hln
      rcases List.mem_append.mp hln with h | h
      · exact hlines ln h
      · simp at h
        subst h
        rcases hcur with h | h
        · exact absurd h h0
        · exact h
  | cons w ws ih =>
    intro lines cur hlines hcur hws ln hln
    rw [List.foldl_cons] at hln
    unfold wrapStep at hln
    by_cases hfit : (pyStrip (cur ++ ' ' :: w)).length ≤ budget
    · rw [if_pos hfit] at hln
      exact ih lines _ hlines (Or.inr (Or.inl hfit))
        (fun x hx => hws x (by simp [hx])) ln hln
    · rw [if_neg hfit] at hln
      refine ih _ w ?_ (Or.inr (Or.inr (hws w (by simp))))
        (fun x hx => hws x (by simp [hx])) ln hln
      intro x hx
      rcases List.mem_append.mp hx with h | h
      · exact hlines x h
      · simp at h
        rw [h]
        by_cases h0 : cur = []
        · rw [h0]; left; simp
        · rcases hcur with hcc | hcc
          · exact absurd hcc h0
          · exact hcc

/-- C5: every line produced by the greedy word wrap — both the shared
`_lines_for_paragraph` and the inline loop of `txt_to_pptx` — has length
at most the budget, except a line that is a single input word (emitted
unsplit) longer than the budget. -/
theorem C5_wrap_budget (text : List Char) (budget : Nat) :
    (∀ lines, _lines_for_paragraph text budget = some lines →
      ∀ ln ∈ lines, ln.length ≤ budget ∨ ln ∈ pyWords text) ∧
    (∀ ln ∈ wrapInline text budget, ln.length ≤ budget ∨ ln ∈ pyWords text) := by
  constructor
  · intro lines hl ln hln
    unfold _lines_for_paragraph at hl
    by_cases h0 : text = []
    · rw [if_pos h0] at hl
      simp at hl
      subst hl
      simp at hln
      subst hln
      left; simp
    · rw [if_neg h0] at hl
      cases hw : pyWords text with
      | nil => rw [hw] at hl; simp at hl
      | cons w ws =>
        rw [hw] at hl
        simp at hl
        subst hl
        refine linesGo_budget ws w (Or.inr ?_) (fun x hx => ?_) ln hln
        · simp
        · simp [hx]
  · intro ln hln
    unfold wrapInline at hln
    exact wrapFold_budget (pyWords text) [] [] (by simp) (Or.inl rfl)
      (fun _ hw => hw) ln hln

/-- Witness for C5 at the concrete input `"hi"` with budget 55, for both
wrap loops. -/
theorem C5_wrap_budget_witness :
    ((String.data "hi").length ≤ 55 ∨ "hi".data ∈ pyWords "hi".data) ∧
    ((String.data "hi").length ≤ 55 ∨ "hi".data ∈ pyWords "hi".data) :=
  ⟨(C5_wrap_budget "hi".data 55).1 ["hi".data] (by decide) "hi".data (by decide),
   (C5_wrap_budget "hi".data 55).2 "hi".data (by decide)⟩

theorem pyStrip_join {cur w : List Char} (hcur : cur ≠ [])
    (hch : ∀ c, cur.head? = some c → isPySpace c = false)
    (hw : w ≠ []) (hwns : ∀ c ∈ w, isPySpace c = false) :
    pyStrip (cur ++ ' ' :: w) = cur ++ ' ' :: w := by
  apply pyStrip_eq_self
  · intro c hc
    rw [List.head?_append] at hc
    cases hh : cur.head? with
    | none => exact absurd (List.head?_eq_none_iff.mp hh) hcur
    | some a =>
      rw [hh] at hc
      simp at hc
      subst hc
      exact hch a hh
  · intro c hc
    rw [List.getLast?_append] at hc
    cases w with
    | nil => exact absurd rfl hw
    | cons b bs =>
      rw [List.getLast?_cons_cons] at hc
      have hbs : ((b :: bs).getLast?).isSome := by
        rw [List.getLast?_isSome]; simp
      cases hg : (b :: bs).getLast? with
      | none => rw [hg] at hbs; simp at hbs
      | some d =>
        rw [hg] at hc
        simp at hc
        subst hc
        exact hwns d (mem_of_getLast? hg)

theorem pyStrip_space_word {w : List Char}
    (hwns : ∀ c ∈ w, isPySpace c = false) :
    pyStrip (' ' :: w) = w := by
  unfold pyStrip
  have h1 : pyLstrip (' ' :: w) = w := by
    unfold pyLstrip
    rw [List.dropWhile_cons, if_pos (by decide)]
    cases w with
    | nil => rfl
    | cons a as => rw [List.dropWhile_cons, if_neg (by simp [hwns a (by simp)])]
  rw [h1]
  apply pyRstrip_eq_self
  intro c hc
  exact hwns c (mem_of_getLast? hc)

theorem wrapFold_eq_linesGo {budget : Nat} :
    ∀ (ws : List (List Char)) (lines : List (List Char)) (cur : List Char),
      cur ≠ [] →
      (∀ c, cur.head? = some c → isPySpace c = false) →
      (∀ c, cur.getLast? = some c → isPySpace c = false) →
      (∀ w ∈ ws, w ≠ [] ∧ ∀ c ∈ w, isPySpace c = false) →
      wrapFinish (ws.foldl (wrapStep budget) (lines, cur)) =
        lines ++ linesGo budget cur ws := by
  intro ws
  induction ws with
  | nil =>
    intro lines cur hne _ _ _
    unfold wrapFinish linesGo
    simp [hne]
  | cons w ws ih =>
    intro lines cur hne hch hcl hws
    obtain ⟨hwne, hwns⟩ := hws w (by simp)
    have hjoin : pyStrip (cur ++ ' ' :: w) = cur ++ ' ' :: w :=
      pyStrip_join hne hch hwne hwns
    have hlen : (pyStrip (cur ++ ' ' :: w)).length = cur.length + 1 + w.length := by
      rw [hjoin]
      simp only [List.length_append, List.length_cons]
      omega
    rw [List.foldl_cons]
    by_cases hfit : cur.length + 1 + w.length ≤ budget
    · have hstep : wrapStep budget (lines, cur) w = (lines, cur ++ ' ' :: w) := by
        unfold wrapStep
        rw [if_pos (by rw [hlen]; exact hfit), hjoin]
      have hgo : linesGo budget cur (w :: ws) = linesGo budget (cur ++ ' ' :: w) ws := by
        rw [show linesGo budget cur (w :: ws) =
          if cur.length + 1 + w.length ≤ budget then linesGo budget (cur ++ ' ' :: w) ws
          else cur :: linesGo budget w ws from rfl, if_pos hfit]
      rw [hstep, hgo]
      refine ih lines (cur ++ ' ' :: w) (by simp) ?_ ?_
        (fun x hx => hws x (by simp [hx]))
      · intro c hc
        rw [List.head?_append] at hc
        cases hh : cur.head? with
        | none => exact absurd (List.head?_eq_none_iff.mp hh) hne
        | some a =>
          rw [hh] at hc
          simp at hc
          subst hc
          exact hch a hh
      · intro c hc
        rw [List.getLast?_append] at hc
        cases hw0 : w with
        | nil => exact absurd hw0 hwne
        | cons b bs =>
          subst hw0
          rw [List.getLast?_cons_cons] at hc
          cases hg : (b :: bs).getLast? with
          | none =>
            rw [hg] at hc
            simp at hc
            exact hcl c hc
          | some d =>
            rw [hg] at hc
            simp at hc
            subst hc
            exact hwns d (mem_of_getLast? hg)
    · have hstep : wrapStep budget (lines, cur) w = (lines ++ [cur], w) := by
        unfold wrapStep
        rw [if_neg (by rw [hlen]; exact hfit)]
      have hgo : linesGo budget cur (w :: ws) = cur :: linesGo budget w ws := by
        rw [show linesGo budget cur (w :: ws) =
          if cur.length + 1 + w.length ≤ budget then linesGo budget (cur ++ ' ' :: w) ws
          else cur :: linesGo budget w ws from rfl, if_neg hfit]
      rw [hstep, hgo, ih (lines ++ [cur]) w hwne
        (fun c hc => hwns c (mem_of_head? hc))
        (fun c hc => hwns c (mem_of_getLast? hc))
        (fun x hx => hws x (by simp [hx]))]
      simp

/-- C4 counterexample: on a single 56-character word the two wrapping
loops disagree — `_lines_for_paragraph` emits the word as one line, while
the inline loop of `txt_to_pptx` first emits a spurious empty line (its
accumulator starts as `""` and the oversized first word does not fit), so
its needed-line count is 2 where the shared engine reports 1. -/
theorem C4_counterexample :
    _lines_for_paragraph (List.replicate 56 'a') 55 = some [List.replicate 56 'a'] ∧
    wrapInline (List.replicate 56 'a') 55 = [[], List.replicate 56 'a'] ∧
    wrapInline (List.replicate 56 'a') 55 ≠ [List.replicate 56 'a'] := by
  refine ⟨by decide, by decide, by decide⟩

/-- C4 amended: whenever the text has at least one word and its first word
fits the 55-character budget, the inline loop of `txt_to_pptx` and
`_lines_for_paragraph` produce exactly the same wrapped lines (so the
needed-line counts agree); they disagree when the first word alone
exceeds the budget (spurious leading empty line) and on empty input
(`[""]` versus `[]`). -/
theorem C4_amended (tx : List Char) (w : List Char) (ws : List (List Char))
    (hw : pyWords tx = w :: ws) (hlen : w.length ≤ 55) :
    _lines_for_paragraph tx 55 = some (wrapInline tx 55) := by
  have hwl : ∀ x ∈ pyWords tx, x ≠ [] ∧ ∀ c ∈ x, isPySpace c = false := pyWords_wordlike
  have htx : tx ≠ [] := by
    intro h0
    rw [h0] at hw
    simp [pyWords, pyWordsAux] at hw
  obtain ⟨hwne, hwns⟩ := hwl w (by rw [hw]; simp)
  unfold _lines_for_paragraph
  rw [if_neg htx, hw]
  unfold wrapInline
  rw [hw, List.foldl_cons]
  have hstep : wrapStep 55 ([], []) w = ([], w) := by
    unfold wrapStep
    have hsp : pyStrip ([] ++ ' ' :: w) = w := by
      simp only [List.nil_append]
      exact pyStrip_space_word hwns
    rw [if_pos (by rw [hsp]; exact hlen), hsp]
  rw [hstep]
  rw [wrapFold_eq_linesGo ws [] w hwne
    (fun c hc => hwns c (mem_of_head? hc))
    (fun c hc => hwns c (mem_of_getLast? hc))
    (fun x hx => hwl x (by rw [hw]; simp [hx]))]
  simp

/-- Witness for C4 amended at the concrete input `"hello world"`. -/
theorem C4_amended_witness :
    _lines_for_paragraph "hello world".data 55 = some (wrapInline "hello world".data 55) :=
  C4_amended "hello world".data "hello".data ["world".data] (by decide) (by decide)

/-!
## Lemmas for the slide renderer
-/

theorem needSum_nil : needSum [] = 0 := rfl

theorem needSum_append (placed : List (List (List Char))) (ls : List (List Char)) :
    needSum (placed ++ [ls]) = needSum placed + max 1 ls.length := by
  simp [needSum]

theorem pptxStep_content (st : PptxState) (bt : BlockType) (btext : List Char)
    (hbt : bt ≠ .h1) (hbt2 : bt ≠ .h2) :
    pptxStep st ⟨bt, btext⟩ =
      if max 1 (wrapInline (soften btext) CHAR_PER_LINE).length + st.used_lines > MAX_LINES
      then ⟨st.done ++ [.content st.curHead st.curPlaced], none,
            [wrapInline (soften btext) CHAR_PER_LINE],
            max 1 (wrapInline (soften btext) CHAR_PER_LINE).length⟩
      else ⟨st.done, st.curHead,
            st.curPlaced ++ [wrapInline (soften btext) CHAR_PER_LINE],
            st.used_lines + max 1 (wrapInline (soften btext) CHAR_PER_LINE).length⟩ := by
  cases bt with
  | h1 => exact absurd rfl hbt
  | h2 => exact absurd rfl hbt2
  | h3 => rfl
  | bullet => rfl
  | p => rfl

theorem pptxStep_inv (st : PptxState) (b : Block)
    (h1 : ∀ s ∈ st.done, slideOK s)
    (h2 : st.used_lines = needSum st.curPlaced)
    (h3 : slideOK (.content st.curHead st.curPlaced)) :
    (∀ s ∈ (pptxStep st b).done, slideOK s) ∧
    (pptxStep st b).used_lines = needSum (pptxStep st b).curPlaced ∧
    slideOK (.content (pptxStep st b).curHead (pptxStep st b).curPlaced) := by
  obtain ⟨bt, btext⟩ := b
  cases bt with
  | h1 =>
    refine ⟨?_, by simp [pptxStep, needSum], by simp [pptxStep, slideOK, needSum]⟩
    intro s hs
    simp only [pptxStep] at hs
    rcases List.mem_append.mp hs with h | h
    · exact h1 s h
    · rcases List.mem_cons.mp h with h | h
      · rw [h]; exact h3
      · simp at h
        rw [h]
        trivial
  | h2 =>
    refine ⟨?_, by simp [pptxStep, needSum], by simp [pptxStep, slideOK, needSum]⟩
    intro s hs
    simp only [pptxStep] at hs
    rcases List.mem_append.mp hs with h | h
    · exact h1 s h
    · simp at h
      rw [h]
      exact h3
  | h3 | bullet | p =>
    all_goals (
      rw [pptxStep_content st _ btext (by simp) (by simp)]
      by_cases hov :
        max 1 (wrapInline (soften btext) CHAR_PER_LINE).length + st.used_lines > MAX_LINES
      · rw [if_pos hov]
        refine ⟨?_, by simp [needSum], ?_⟩
        · intro s hs
          rcases List.mem_append.mp hs with h | h
          · exact h1 s h
          · simp at h
            rw [h]
            exact h3
        · rcases le_or_lt (max 1 (wrapInline (soften btext) CHAR_PER_LINE).length)
            MAX_LINES with hle | hlt
          · left
            simpa [needSum] using hle
          · right
            exact ⟨wrapInline (soften btext) CHAR_PER_LINE, rfl, hlt⟩
      · rw [if_neg hov]
        refine ⟨h1, by simp [needSum_append, h2], ?_⟩
        left
        show needSum (st.curPlaced ++ [wrapInline (soften btext) CHAR_PER_LINE]) ≤ MAX_LINES
        rw [needSum_append, ← h2]
        omega)

theorem pptxFold_inv :
    ∀ (blocks : List Block) (st : PptxState),
      (∀ s ∈ st.done, slideOK s) →
      st.used_lines = needSum st.curPlaced →
      slideOK (.content st.curHead st.curPlaced) →
      (∀ s ∈ (blocks.foldl pptxStep st).done, slideOK s) ∧
      (blocks.foldl pptxStep st).used_lines =
        needSum (blocks.foldl pptxStep st).curPlaced ∧
      slideOK (.content (blocks.foldl pptxStep st).curHead
        (blocks.foldl pptxStep st).curPlaced) := by
  intro blocks
  induction blocks with
  | nil => intro st a b c; exact ⟨a, b, c⟩
  | cons b bs ih =>
    intro st ha hb hc
    rw [List.foldl_cons]
    obtain ⟨i1, i2, i3⟩ := pptxStep_inv st b ha hb hc
    exact ih (pptxStep st b) i1 i2 i3

/-- C1 amended: in any rendered deck, every content slide either respects
the capacity bound (`needSum placed ≤ MAX_LINES`, where `MAX_LINES = 17`)
or consists of exactly one block whose own needed-line count exceeds the
bound — a single block's lines are placed as one unit and can overflow a
slide on their own, which the original universally-quantified bound
overlooked. -/
theorem C1_amended (blocks : List Block) (title : List Char) (s : PSlide)
    (hs : s ∈ txt_to_pptx blocks title) (heading : Option (List Char))
    (placed : List (List (List Char))) (he : s = .content heading placed) :
    needSum placed ≤ MAX_LINES ∨ ∃ ls, placed = [ls] ∧ MAX_LINES < max 1 ls.length := by
  have hinv := pptxFold_inv blocks ⟨[.cover title], none, [], 0⟩
    (by
      intro x hx
      simp at hx
      rw [hx]
      trivial)
    (by simp [needSum])
    (by left; simp [needSum])
  unfold txt_to_pptx pptxSlides at hs
  rcases List.mem_append.mp hs with h | h
  · have hok := hinv.1 s h
    rw [he] at hok
    simpa [slideOK] using hok
  · simp at h
    rw [he] at h
    have hok := hinv.2.2
    rw [← h] at hok
    simpa [slideOK] using hok

/-- Witness for C1 amended: the single-paragraph deck for `"hi"` has its
one placed block within capacity. -/
theorem C1_amended_witness :
    needSum [["hi".data]] ≤ MAX_LINES ∨
      ∃ ls, [["hi".data]] = [ls] ∧ MAX_LINES < max 1 ls.length :=
  C1_amended [⟨.p, "hi".data⟩] "T".data (.content none [["hi".data]])
    (by decide) none [["hi".data]] rfl

set_option maxRecDepth 100000 in
/-- C1 counterexample: a single paragraph of 18 twenty-eight-character
words wraps to 18 lines (each word alone overfills a 55-character line
with any neighbour), so `needed = 18 > MAX_LINES = 17`; `ensure_space`
starts a fresh slide and the block is placed on it whole, producing a
content slide whose needed-line total exceeds the configured maximum —
the deck has one capacity-violating content slide, not zero as the claim
requires.  (The claim's own 500-word-paragraph example behaves the same
way: a paragraph is one block and is never split across slides.) -/
theorem C1_counterexample :
    capacityViolations (txt_to_pptx
      [⟨.p, List.intercalate " ".data (List.replicate 18 (List.replicate 28 'a'))⟩]
      "T".data) = 1 ∧
    contentCount (txt_to_pptx
      [⟨.p, List.intercalate " ".data (List.replicate 18 (List.replicate 28 'a'))⟩]
      "T".data) = 2 := by
  refine ⟨by decide, by decide⟩

/-- C6: a Heading1 block finalizes the active slide, appends a slide
dedicated to the (softened) heading text, and starts a fresh empty content
slide with the used-line counter reset to zero; the immediately following
non-heading block's wrapped lines are then placed on a content slide that
held nothing before. -/
theorem C6_heading_transition (st : PptxState) (tx : List Char) (c : Block)
    (hc1 : c.type ≠ .h1) (hc2 : c.type ≠ .h2) :
    pptxStep st ⟨.h1, tx⟩ =
      ⟨st.done ++ [.content st.curHead st.curPlaced, .h1slide (soften tx)],
       none, [], 0⟩ ∧
    (pptxSlides (pptxStep (pptxStep st ⟨.h1, tx⟩) c)).getLast? =
      some (.content none [wrapInline (soften c.text) CHAR_PER_LINE]) := by
  refine ⟨rfl, ?_⟩
  obtain ⟨ct, ctext⟩ := c
  cases ct with
  | h1 => exact absurd rfl hc1
  | h2 => exact absurd rfl hc2
  | h3 | bullet | p =>
    all_goals (
      rw [show pptxStep st ⟨.h1, tx⟩ =
        ⟨st.done ++ [.content st.curHead st.curPlaced, .h1slide (soften tx)],
         none, [], 0⟩ from rfl,
        pptxStep_content _ _ ctext (by simp) (by simp)]
      split <;> simp [pptxSlides])

/-!
## Lemmas for the fixed-page renderer
-/

theorem storyBulletLists_append (a b : List PdfElem) :
    storyBulletLists (a ++ b) = storyBulletLists a ++ storyBulletLists b := by
  simp [storyBulletLists]

theorem storyBulletLists_flush (story : List PdfElem) (bullets : List (List Char)) :
    storyBulletLists (pdfFlush story bullets) =
      storyBulletLists story ++ (if bullets = [] then [] else [bullets]) := by
  unfold pdfFlush
  by_cases h : bullets = []
  · simp [h]
  · rw [if_neg h, if_neg h, storyBulletLists_append]
    simp [storyBulletLists]

theorem parTexts_append (a b : List PdfElem) :
    (a ++ b).filterMap parText = a.filterMap parText ++ b.filterMap parText := by
  simp

theorem parTexts_flush (story : List PdfElem) (bullets : List (List Char)) :
    (pdfFlush story bullets).filterMap parText = story.filterMap parText := by
  unfold pdfFlush
  by_cases h : bullets = []
  · simp [h]
  · rw [if_neg h, parTexts_append]
    simp [parText]

theorem pdfStep_cases (story : List PdfElem) (bullets : List (List Char))
    (bt : BlockType) (btext : List Char) (hb : bt ≠ .bullet) :
    ∃ extra, pdfStep (story, bullets) ⟨bt, btext⟩ = (pdfFlush story bullets ++ extra, []) ∧
      storyBulletLists extra = [] ∧ extra.filterMap parText = [btext] := by
  cases bt with
  | h1 => exact ⟨[.pageBreak, .par "H1X".data btext], rfl, rfl, rfl⟩
  | h2 => exact ⟨[.par "H2X".data btext], rfl, rfl, rfl⟩
  | h3 => exact ⟨[.par "H3X".data btext], rfl, rfl, rfl⟩
  | bullet => exact absurd rfl hb
  | p => exact ⟨[.par "BodyX".data btext, .spacer 4], rfl, rfl, rfl⟩

theorem bulletRunsAux_nonbullet (bullets : List (List Char)) (bt : BlockType)
    (btext : List Char) (bs : List Block) (hb : bt ≠ .bullet) :
    bulletRunsAux bullets (⟨bt, btext⟩ :: bs) =
      if bullets = [] then bulletRunsAux [] bs else bullets :: bulletRunsAux [] bs := by
  rw [show bulletRunsAux bullets (⟨bt, btext⟩ :: bs) =
    if (⟨bt, btext⟩ : Block).type = .bullet then bulletRunsAux (bullets ++ [btext]) bs
    else if bullets = [] then bulletRunsAux [] bs
    else bullets :: bulletRunsAux [] bs from rfl, if_neg (by simpa using hb)]

theorem pdfFold_bullets :
    ∀ (blocks : List Block) (story : List PdfElem) (bullets : List (List Char)),
      storyBulletLists (pdfFlush (blocks.foldl pdfStep (story, bullets)).1
          (blocks.foldl pdfStep (story, bullets)).2) =
        storyBulletLists story ++ bulletRunsAux bullets blocks := by
  intro blocks
  induction blocks with
  | nil =>
    intro story bullets
    rw [List.foldl_nil, storyBulletLists_flush]
    by_cases h : bullets = [] <;> simp [h, bulletRunsAux]
  | cons b bs ih =>
    intro story bullets
    rw [List.foldl_cons]
    obtain ⟨bt, btext⟩ := b
    by_cases hb : bt = .bullet
    · subst hb
      rw [show pdfStep (story, bullets) ⟨.bullet, btext⟩ =
        (story, bullets ++ [btext]) from rfl, ih]
      rw [show bulletRunsAux bullets (⟨.bullet, btext⟩ :: bs) =
        bulletRunsAux (bullets ++ [btext]) bs from rfl]
    · obtain ⟨extra, hstep, hSL, -⟩ := pdfStep_cases story bullets bt btext hb
      rw [hstep, ih, storyBulletLists_append, hSL, storyBulletLists_flush,
        bulletRunsAux_nonbullet bullets bt btext bs hb]
      by_cases hbe : bullets = [] <;> simp [hbe]

theorem pdfFold_pars :
    ∀ (blocks : List Block) (story : List PdfElem) (bullets : List (List Char)),
      (pdfFlush (blocks.foldl pdfStep (story, bullets)).1
          (blocks.foldl pdfStep (story, bullets)).2).filterMap parText =
        story.filterMap parText ++
          (blocks.filter (fun b => b.type ≠ .bullet)).map Block.text := by
  intro blocks
  induction blocks with
  | nil =>
    intro story bullets
    rw [List.foldl_nil, parTexts_flush]
    simp
  | cons b bs ih =>
    intro story bullets
    rw [List.foldl_cons]
    obtain ⟨bt, btext⟩ := b
    by_cases hb : bt = .bullet
    · subst hb
      rw [show pdfStep (story, bullets) ⟨.bullet, btext⟩ =
        (story, bullets ++ [btext]) from rfl, ih]
      rw [List.filter_cons_of_neg (by simp)]
    · obtain ⟨extra, hstep, -, hPT⟩ := pdfStep_cases story bullets bt btext hb
      rw [hstep, ih, parTexts_append, hPT, parTexts_flush,
        List.filter_cons_of_pos (by simpa using hb)]
      simp

/-- C8: in the fixed-page renderer, the grouped bullet lists of the story
are exactly the maximal runs of consecutive bullet blocks, in order
(buffered bullets are flushed as one `ListFlowable` when a non-bullet
block follows or the sequence ends), and the styled paragraphs of the
story are exactly the title followed by the non-bullet block texts in
order — so bullet text is never emitted outside a grouped list. -/
theorem C8_bullet_grouping (blocks : List Block) (title : List Char) :
    storyBulletLists (txt_to_pdf blocks title) = bulletRuns blocks ∧
    (txt_to_pdf blocks title).filterMap parText =
      title :: (blocks.filter (fun b => b.type ≠ .bullet)).map Block.text := by
  constructor
  · unfold txt_to_pdf bulletRuns
    rw [pdfFold_bullets]
    simp [storyBulletLists, pdfHeader]
  · unfold txt_to_pdf
    rw [pdfFold_pars]
    simp [parText, pdfHeader]

/-!
## The entry point and the palette selector
-/

set_option maxRecDepth 40000 in
/-- Sanity check: the embedded SHA-256 reproduces the FIPS 180-4 test
vector for the empty message. -/
theorem sha256hex_empty_vector :
    sha256hex (pyEncode "".data) =
      "e3b0c44298fc1c149afbf4c8996fb92427ae41e4649b934ca495991b7852b855".data := by
  decide

set_option maxRecDepth 40000 in
/-- Sanity check: the embedded SHA-256 reproduces the FIPS 180-4 test
vector for `"abc"`. -/
theorem sha256hex_abc_vector :
    sha256hex (pyEncode "abc".data) =
      "ba7816bf8f01cfea414140de5dae2223b00361a396177a9cb410ff61f20015ad".data := by
  decide

theorem palette_get_mem : ∀ (i : Fin PALETTES.length),
    (PALETTES.get i).2 = deep_sapphire ∨ (PALETTES.get i).2 = slate_modern ∨
      (PALETTES.get i).2 = minimal_white := by decide

/-- C7: palette selection is a pure deterministic function of the title —
equal titles yield the identical palette, and the result is always one of
the three palettes of the fixed table. -/
theorem C7_palette_deterministic (key₁ key₂ : List Char) (h : key₁ = key₂) :
    pick_palette key₁ = pick_palette key₂ ∧
    (pick_palette key₁ = deep_sapphire ∨ pick_palette key₁ = slate_modern ∨
      pick_palette key₁ = minimal_white) := by
  subst h
  refine ⟨rfl, ?_⟩
  unfold pick_palette
  exact palette_get_mem _

/-- Witness for C7 at the concrete title `"Demo"`. -/
theorem C7_palette_deterministic_witness :
    pick_palette "Demo".data = pick_palette "Demo".data ∧
    (pick_palette "Demo".data = deep_sapphire ∨
      pick_palette "Demo".data = slate_modern ∨
      pick_palette "Demo".data = minimal_white) :=
  C7_palette_deterministic "Demo".data "Demo".data rfl

/-- C2 counterexample: a `file_generator` call with format `pdf` and no
path hint persists two files, not one — the raw text at the resolved
`.txt` path and the rendered document at the `.pdf` path.  The claim that
exactly one file is produced and no other file is persisted is false. -/
theorem C2_counterexample :
    (file_generator "Report".data "hello".data "pdf".data none "out".data).writes.map
        Prod.fst = ["out/Report.txt".data, "out/Report.pdf".data] ∧
    (file_generator "Report".data "hello".data "pdf".data none
        "out".data).writes.length ≠ 1 := by
  refine ⟨by decide, by decide⟩

/-- C2 amended: for formats pdf, docx and pptx, the call performs exactly
two writes — the stripped raw response text at the resolved save path,
and the rendered document at that path with every `".txt"` occurrence
replaced by the format extension — and returns the rendered document's
path. -/
theorem C2_amended (topic respText : List Char) (save_path : Option (List Char))
    (defaultDir : List Char) (ext : List Char)
    (hext : ext = "pdf".data ∨ ext = "docx".data ∨ ext = "pptx".data) :
    ∃ rendered,
      file_generator topic respText ext save_path defaultDir =
        ⟨[(resolveSavePath topic save_path defaultDir, .rawText (pyStrip respText)),
          (pyReplace ".txt".data ('.' :: ext) (resolveSavePath topic save_path defaultDir),
           rendered)],
         pyReplace ".txt".data ('.' :: ext)
           (resolveSavePath topic save_path defaultDir)⟩ := by
  rcases hext with h | h | h <;> subst h
  · exact ⟨.pdfDoc (txt_to_pdf (parse_txt_structure (some (pyStrip respText))) topic), rfl⟩
  · exact ⟨.docxDoc (txt_to_docx (parse_txt_structure (some (pyStrip respText))) topic), rfl⟩
  · exact ⟨.pptxDeck (txt_to_pptx (parse_txt_structure (some (pyStrip respText))) topic), rfl⟩

/-- Witness for C2 amended at a concrete pdf call. -/
theorem C2_amended_witness :
    ∃ rendered,
      file_generator "Report".data "hello".data "pdf".data none "out".data =
        ⟨[(resolveSavePath "Report".data none "out".data,
           .rawText (pyStrip "hello".data)),
          (pyReplace ".txt".data ('.' :: "pdf".data)
            (resolveSavePath "Report".data none "out".data), rendered)],
         pyReplace ".txt".data ('.' :: "pdf".data)
           (resolveSavePath "Report".data none "out".data)⟩ :=
  C2_amended "Report".data "hello".data none "out".data "pdf".data (Or.inl rfl)

/-- Witness for C6 at a concrete state and blocks: a Heading1 `"Head"`
followed by a paragraph `"hi"`. -/
theorem C6_heading_transition_witness :
    pptxStep ⟨[.cover "T".data], none, [], 0⟩ ⟨.h1, "Head".data⟩ =
      ⟨[.cover "T".data] ++ [.content none [], .h1slide (soften "Head".data)],
       none, [], 0⟩ ∧
    (pptxSlides (pptxStep (pptxStep ⟨[.cover "T".data], none, [], 0⟩ ⟨.h1, "Head".data⟩)
        ⟨.p, "hi".data⟩)).getLast? =
      some (.content none [wrapInline (soften "hi".data) CHAR_PER_LINE]) :=
  C6_heading_transition ⟨[.cover "T".data], none, [], 0⟩ "Head".data ⟨.p, "hi".data⟩
    (by decide) (by decide)

end VocalEye
